import Mathlib

/-!
# Verification of the `slice` package

A shallow embedding of `src/slice/slice.go` and theorems about it.

Conventions of the embedding:

* a Go slice `[]T` is a `List T` holding its contents (length `len`); capacity and the
  sharing of backing storage are not observable in the contents and are not modelled;
* Go `int` is `Int`; where the source decrements a counter that can reach the lower end of
  the 64-bit range, the wrap-around is written out (`wrapInt`);
* a function that can abort (a run-time panic) returns `Except String _`, the error being
  the panic;
* caller-supplied function values are total Lean functions.
-/

set_option autoImplicit false

namespace Slice

universe u v

variable {T : Type u}

/-! ## Reduce -/

/-- The `for i := 1; i < len(slice); i++` loop of `Reduce`: `rest` holds `slice[i:]`,
`result` the value of the variable `result` on entry. The two-cell buffer `tmp` only
carries `result` and `slice[i]` into the call of `iteratee`. -/
def reduceLoop (iteratee : Int → T → T → T) : Int → List T → T → T
  | _, [], result => result
  | i, item :: rest, result => reduceLoop iteratee (i + 1) rest (iteratee i result item)

/-- Function `Reduce` of `slice.go`. -/
def Reduce (slice : List T) (iteratee : Int → T → T → T) (initial : T) : T :=
  match slice with
  | [] => initial
  | first :: rest => reduceLoop iteratee 1 rest (iteratee 0 initial first)

/-- The index-aware left fold of the specification, written from its words:
`r 0 = initial` and `r (i+1) = f i (r i) s[i]` for `i < len s` (beyond the length the
sequence stays constant). -/
def reduceSeq (s : List T) (f : Int → T → T → T) (initial : T) : Nat → T
  | 0 => initial
  | i + 1 =>
    match s[i]? with
    | some x => f (i : Int) (reduceSeq s f initial i) x
    | none => reduceSeq s f initial i

/-! ## Chunk and Concat -/

/-- Body of the `for _, item := range slice` loop of `Chunk`, on the variable `result`:
a fresh empty group is appended when there is no group yet or the last one holds `size`
elements, then `item` is appended to the group at index `l-1`. -/
def chunkStep (size : Int) (result : List (List T)) (item : T) : List (List T) :=
  let l := result.length
  let grown := l = 0 ∨ (((result.getD (l - 1) []).length : Int) = size)
  let result := if grown then result ++ [[]] else result
  let l := if grown then l + 1 else l
  result.set (l - 1) (result.getD (l - 1) [] ++ [item])

/-- Function `Chunk` of `slice.go`. -/
def Chunk (slice : List T) (size : Int) : List (List T) :=
  if slice.length = 0 ∨ size ≤ 0 then []
  else slice.foldl (chunkStep size) []

/-- Function `Concat` of `slice.go`: `slices` is the variadic argument. -/
def Concat (slice : List T) (slices : List (List T)) : List T :=
  slices.foldl (fun result v => result ++ v) ([] ++ slice)

/-- The call `Concat(groups...)` of the specification: the first group is the first
argument and the others the variadic rest; with no group at all there is nothing to
concatenate and the reconstruction is the empty sequence. -/
def concatAll (groups : List (List T)) : List T :=
  match groups with
  | [] => []
  | first :: others => Concat first others

/-! ## DeleteAt -/

/-- Function `DeleteAt` of `slice.go`; `endArgs` is the variadic argument `end`, of which only the
first value is read. `append(slice[:start], slice[end:]...)` writes the tail over the
removed range of the same backing array; the returned view holds `slice[:start]` followed
by `slice[end:]`. -/
def DeleteAt (slice : List T) (start : Int) (endArgs : List Int) : List T :=
  let size : Int := slice.length
  if start < 0 ∨ start ≥ size then slice
  else
    match endArgs with
    | e :: _ =>
      if e ≤ start then slice
      else
        let e := if e > size then size else e
        slice.take start.toNat ++ slice.drop e.toNat
    | [] =>
      if start = size - 1 then slice.take start.toNat
      else slice.take start.toNat ++ slice.drop (start + 1).toNat

/-! ## Repeat -/

/-- The built-in `make([]T, n)`: the run-time panic "makeslice: len out of range" for a
negative length and for a length above `maxLen`, otherwise `n` copies of the zero value of
`T`. `maxLen` is the largest length for which the runtime allocates a `[]T` (the allocation
limit divided by the size of `T`, on a 64-bit platform `2^48` bytes, so `2^45` for a
`[]int`). -/
def makeSlice (maxLen : Nat) (zero : T) (n : Int) : Except String (List T) :=
  if n < 0 ∨ (maxLen : Int) < n then .error "runtime error: makeslice: len out of range"
  else .ok (List.replicate n.toNat zero)

/-- Function `Repeat` of `slice.go`; `zero` is the zero value of `T` and `maxLen` the
largest length `make` accepts for a `[]T`. The loop `for i := range result` assigns
`result[i] = item` at every index. -/
def Repeat (maxLen : Nat) (zero : T) (item : T) (n : Int) : Except String (List T) :=
  match makeSlice maxLen zero n with
  | .error e => .error e
  | .ok result => .ok ((List.range result.length).foldl (fun r i => r.set i item) result)

/-! ## Replace, ReplaceAll, Count -/

/-- Two's-complement wrap-around of a 64-bit Go `int`. -/
def wrapInt (x : Int) : Int := (x + 2 ^ 63) % 2 ^ 64 - 2 ^ 63

/-- Body of the loop `for i := range result` of `Replace`, on the pair of variables
`(result, n)`. -/
def replaceStep [DecidableEq T] (old new : T) (state : List T × Int) (i : Nat) : List T × Int :=
  if state.1[i]? = some old ∧ state.2 ≠ 0 then (state.1.set i new, wrapInt (state.2 - 1))
  else state

/-- Function `Replace` of `slice.go`: `result` starts as a copy of `slice`. -/
def Replace [DecidableEq T] (slice : List T) (old new : T) (n : Int) : List T :=
  let result := slice
  ((List.range result.length).foldl (replaceStep old new) (result, n)).1

/-- Function `ReplaceAll` of `slice.go`. -/
def ReplaceAll [DecidableEq T] (slice : List T) (old new : T) : List T :=
  Replace slice old new (-1)

/-- Function `Count` of `slice.go`. -/
def Count [DecidableEq T] (slice : List T) (item : T) : Int :=
  slice.foldl (fun count v => if item = v then count + 1 else count) 0

/-- The loop of `Replace` by recursion on the elements still to visit, with the current
value of `n`; `replaceLoop_spec` relates it to the index loop. -/
def replaceLoop [DecidableEq T] (old new : T) : List T → Int → List T
  | [], _ => []
  | x :: rest, n =>
    if x = old ∧ n ≠ 0 then new :: replaceLoop old new rest (wrapInt (n - 1))
    else x :: replaceLoop old new rest n

/-- Indices of the occurrences of `old` in `s`, in increasing order. -/
def occurrences [DecidableEq T] (s : List T) (old : T) : List Nat :=
  (List.range s.length).filter (fun i => decide (s[i]? = some old))

/-! ## Type-erased values

The reflective functions (`Flatten`, `FlattenDeep`, `StringSlice`, `IntSlice`) receive a
value of type `any` and inspect it with package `reflect`. The model keeps what that
inspection can see: the type of a value, and for a slice its declared element type and its
elements. Types are finite trees (a recursive named slice type such as `type R []R` is not
represented), `interface{}` is the only interface type, and a nil slice is not
distinguished from an empty one. -/

/-- Go types as far as the reflective code tells them apart. `other` stands for any type
that is neither `int`, `string`, an interface nor a slice (arrays, structs, named types). -/
inductive GoType
  | int
  | string
  | other (name : String)
  | iface
  | slice (elem : GoType)
  deriving DecidableEq, Repr

/-- The values of `reflect.Kind` that occur; `invalid` is the kind of the zero
`reflect.Value`. -/
inductive Kind
  | int
  | string
  | other
  | interface
  | slice
  | invalid
  deriving DecidableEq, Repr

/-- The method `Type.Kind()`. -/
def GoType.kind : GoType → Kind
  | .int => .int
  | .string => .string
  | .other _ => .other
  | .iface => .interface
  | .slice _ => .slice

/-- Go values. `ifaceNil` and `iface v` are the values of type `interface{}`: the nil
interface and the interface holding the dynamic value `v`. `slice elem items` is a slice
of static type `[]elem`. -/
inductive GoValue
  | int (n : Int)
  | str (s : String)
  | other (typeName : String) (id : Nat)
  | ifaceNil
  | iface (dyn : GoValue)
  | slice (elem : GoType) (items : List GoValue)
  deriving Repr

/-- Static type of a value; for a `reflect.Value` obtained by `Index` this is the element
type of the indexed slice. -/
def GoValue.typeOf : GoValue → GoType
  | .int _ => .int
  | .str _ => .string
  | .other n _ => .other n
  | .ifaceNil => .iface
  | .iface _ => .iface
  | .slice e _ => .slice e

/-- The method `Value.Interface()`, and the conversion of an argument to `any`: a value of interface
type is returned as it is, any other value is put in an interface. -/
def box : GoValue → GoValue
  | .ifaceNil => .ifaceNil
  | .iface v => .iface v
  | v => .iface v

/-- The function `reflect.ValueOf`: the dynamic value held by an `any`; `none` is the zero
`reflect.Value`, obtained from the nil interface. -/
def valueOf : GoValue → Option GoValue
  | .ifaceNil => none
  | .iface v => some v
  | v => some v

/-- The method `Value.Kind()`, on a possibly zero `reflect.Value`. -/
def kindOf : Option GoValue → Kind
  | none => .invalid
  | some v => v.typeOf.kind

/-- The call `reflect.Append(result, item)` for a `result` of type `[]elem`: `Set` panics on the
zero `Value`; a value of the element type is stored as it is; a value of another type is
stored in an interface when the element type is `interface{}`; nothing else is
assignable. -/
def reflectAppend (elem : GoType) (result : List GoValue) (item : Option GoValue) :
    Except String (List GoValue) :=
  match item with
  | none => .error "reflect: call of reflect.Value.Set on zero Value"
  | some v =>
    if v.typeOf = elem then .ok (result ++ [v])
    else if elem = .iface then .ok (result ++ [.iface v])
    else .error "reflect.Set: value is not assignable to the element type"

/-- Modelled from the spec: `sliceValue` is called by the source but defined outside it.
A type-erased sequence is "an opaque value carrying both its element type descriptor and
its length/contents"; `sliceValue` gives that view (element type, elements) of its
argument and aborts when the argument is not a sequence. -/
def sliceValue (x : GoValue) : Except String (GoType × List GoValue) :=
  match valueOf x with
  | some (.slice elem items) => .ok (elem, items)
  | _ => .error "invalid slice type"

/-- Function `sliceElemType` of `slice.go`: strips slice constructors until the kind is not
`Slice`. -/
def sliceElemType : GoType → GoType
  | .slice elem => sliceElemType elem
  | t => t

mutual
/-- Function `flattenRecursive` of `slice.go`, `st` being the element type of `result`. The kind
tested for an element is that of `value.Index(i)`, the declared element type of `value`. -/
def flattenRecursive (st : GoType) (value : GoValue) (result : List GoValue) :
    Except String (List GoValue) :=
  match value with
  | .slice elem items => flattenLoop st elem items result
  | _ => .error "reflect: call of reflect.Value.Len on a non-slice Value"
termination_by structural value
/-- The `for i := 0; i < value.Len(); i++` loop of `flattenRecursive` over the elements
still to visit, `elem` being the element type of `value`. -/
def flattenLoop (st : GoType) (elem : GoType) (items : List GoValue) (result : List GoValue) :
    Except String (List GoValue) :=
  match items with
  | [] => .ok result
  | item :: rest =>
    if elem.kind = .slice then
      match flattenRecursive st item result with
      | .ok r => flattenLoop st elem rest r
      | .error err => .error err
    else
      match reflectAppend st result (some item) with
      | .ok r => flattenLoop st elem rest r
      | .error err => .error err
termination_by structural items
end

/-- Function `FlattenDeep` of `slice.go`. -/
def FlattenDeep (x : GoValue) : Except String GoValue :=
  match sliceValue x with
  | .error err => .error err
  | .ok (elem, items) =>
    let st := sliceElemType (.slice elem)
    match flattenRecursive st (.slice elem items) [] with
    | .ok result => .ok (box (.slice st result))
    | .error err => .error err

/-- Inner loop of `Flatten`: `result = reflect.Append(result, item.Index(j))` for every
`j`. -/
def flattenInner (elem : GoType) : List GoValue → List GoValue → Except String (List GoValue)
  | [], result => .ok result
  | y :: ys, result =>
    match reflectAppend elem result (some y) with
    | .ok r => flattenInner elem ys r
    | .error err => .error err

/-- Outer loop of `Flatten` over the elements still to visit, `elem` being the element
type of `result`; `item` is `reflect.ValueOf(sv.Index(i).Interface())`. -/
def flattenOuter (elem : GoType) : List GoValue → List GoValue → Except String (List GoValue)
  | [], result => .ok result
  | x :: rest, result =>
    let item := valueOf (box x)
    match item with
    | some (.slice _ its) =>
      match flattenInner elem its result with
      | .ok r => flattenOuter elem rest r
      | .error err => .error err
    | _ =>
      match reflectAppend elem result item with
      | .ok r => flattenOuter elem rest r
      | .error err => .error err

/-- Function `Flatten` of `slice.go`. In the last branch the function returns its variable
`result`, still the zero `reflect.Value`, as an `any`. -/
def Flatten (x : GoValue) : Except String GoValue :=
  match sliceValue x with
  | .error err => .error err
  | .ok (elem, items) =>
    match elem with
    | .iface =>
      match flattenOuter .iface items [] with
      | .ok result => .ok (box (.slice .iface result))
      | .error err => .error err
    | .slice inner =>
      match flattenOuter inner items [] with
      | .ok result => .ok (box (.slice inner result))
      | .error err => .error err
    | _ => .ok (box (.other "reflect.Value" 0))

/-- The type assertion `.(int)` on an `any`: `(v, ok)` with `ok` true exactly when the
dynamic type is `int`. -/
def assertInt : GoValue → Option Int
  | .iface (.int v) => some v
  | _ => none

/-- The type assertion `.(string)` on an `any`. -/
def assertString : GoValue → Option String
  | .iface (.str v) => some v
  | _ => none

/-- Loop of `IntSlice` at index `i` over the elements still to visit: the assertion is
made on `sv.Index(i).Interface()`, a failed one panics, the value of a successful one is
stored at `result[i]`. -/
def intSliceLoop : List GoValue → Nat → List Int → Except String (List Int)
  | [], _, result => .ok result
  | item :: rest, i, result =>
    match assertInt (box item) with
    | some v => intSliceLoop rest (i + 1) (result.set i v)
    | none => .error "invalid element type"

/-- Function `IntSlice` of `slice.go`. -/
def IntSlice (x : GoValue) : Except String (List Int) :=
  match sliceValue x with
  | .error err => .error err
  | .ok (_, items) => intSliceLoop items 0 (List.replicate items.length 0)

/-- Loop of `StringSlice`, as `intSliceLoop` with the assertion `.(string)`. -/
def stringSliceLoop : List GoValue → Nat → List String → Except String (List String)
  | [], _, result => .ok result
  | item :: rest, i, result =>
    match assertString (box item) with
    | some v => stringSliceLoop rest (i + 1) (result.set i v)
    | none => .error "invalid element type"

/-- Function `StringSlice` of `slice.go`. -/
def StringSlice (x : GoValue) : Except String (List String) :=
  match sliceValue x with
  | .error err => .error err
  | .ok (_, items) => stringSliceLoop items 0 (List.replicate items.length "")

mutual
/-- Values that Go's typing admits: an interface holds a well-typed value that is not
itself of interface type, and every element of a slice is a well-typed value of the
declared element type. -/
def GoValue.wellTyped (v : GoValue) : Bool :=
  match v with
  | .iface d => decide (d.typeOf.kind ≠ .interface) && d.wellTyped
  | .slice elem items => wellTypedItems elem items
  | _ => true
termination_by structural v
/-- Every element is a well-typed value of type `elem`. -/
def wellTypedItems (elem : GoType) (items : List GoValue) : Bool :=
  match items with
  | [] => true
  | item :: rest => decide (item.typeOf = elem) && item.wellTyped && wellTypedItems elem rest
termination_by structural items
end

/-- A value is a sequence when, looked at through an `any`, its kind is `Slice`. -/
def isSequence (v : GoValue) : Bool :=
  decide (kindOf (valueOf (box v)) = .slice)

mutual
/-- The non-sequence leaves of a nested value in depth-first encounter order, written from
the words of the specification: a sequence, held in an interface or not, contributes the
leaves of its elements; any other value is a leaf. -/
def leaves (v : GoValue) : List GoValue :=
  match v with
  | .slice _ items => leavesOfItems items
  | .iface d =>
    match d with
    | .slice _ items => leavesOfItems items
    | _ => [.iface d]
  | w => [w]
termination_by structural v
/-- Leaves of the elements of a sequence, in order. -/
def leavesOfItems (items : List GoValue) : List GoValue :=
  match items with
  | [] => []
  | item :: rest => leaves item ++ leavesOfItems rest
termination_by structural items
end

/-- The value found in a slice of element type `elem` after `v` was stored in it: `v`
itself when it has that type, `v` put in an interface otherwise. -/
def asElem (elem : GoType) (v : GoValue) : GoValue :=
  if v.typeOf = elem then v else .iface v

/-- One level of unwrapping, written from the words of the specification: an element
that is itself a sequence is replaced by its own elements, any other element is kept. -/
def unwrapOnce : List GoValue → List GoValue
  | [] => []
  | e :: rest =>
    (match valueOf (box e) with
      | some (.slice _ its) => its
      | _ => [e]) ++ unwrapOnce rest

/-! ## Indexed selections

Helpers in which the claims about `Filter`, `GroupBy` and `DifferenceBy` are stated. -/

/-- The elements `s[i]` for which `q i s[i]` holds, in the order of `s`. -/
def selectIdx (q : Int → T → Bool) (s : List T) : List T :=
  (s.enum.filter (fun ix => q (ix.1 : Int) ix.2)).map Prod.snd

/-- The values `f i s[i]`, in the order of `s`. -/
def projectIdx {U : Type v} (f : Int → T → U) (s : List T) : List U :=
  s.enum.map (fun ix => f (ix.1 : Int) ix.2)

/-- Putting the elements of two groups back at their original indices: `flags` tells, index
by index, from which group the element comes (`true` for the first). -/
def reassemble : List Bool → List T → List T → List T
  | [], _, _ => []
  | true :: flags, x :: a, b => x :: reassemble flags a b
  | false :: flags, a, y :: b => y :: reassemble flags a b
  | true :: _, [], _ => []
  | false :: _, _, [] => []

/-! ## Filter and GroupBy -/

/-- The `for i, v := range slice` loop of `Filter`: `rest` is `slice[i:]`. -/
def filterLoop (predicate : Int → T → Bool) : List T → Nat → List T → List T
  | [], _, result => result
  | v :: rest, i, result =>
    filterLoop predicate rest (i + 1) (if predicate (i : Int) v then result ++ [v] else result)

/-- Function `Filter` of `slice.go`. -/
def Filter (slice : List T) (predicate : Int → T → Bool) : List T :=
  filterLoop predicate slice 0 []

/-- The `for i, v := range slice` loop of `GroupBy` on the pair `(groupA, groupB)`. -/
def groupByLoop (groupFn : Int → T → Bool) : List T → Nat → List T × List T → List T × List T
  | [], _, groups => groups
  | v :: rest, i, groups =>
    let ok := groupFn (i : Int) v
    groupByLoop groupFn rest (i + 1)
      (if ok then (groups.1 ++ [v], groups.2) else (groups.1, groups.2 ++ [v]))

/-- Function `GroupBy` of `slice.go`. -/
def GroupBy (slice : List T) (groupFn : Int → T → Bool) : List T × List T :=
  if slice.length = 0 then ([], [])
  else groupByLoop groupFn slice 0 ([], [])

/-! ## Contain, Map, DifferenceBy -/

/-- The index expression `slice[i]`: a run-time panic when `i` is out of range. -/
def index (slice : List T) (i : Int) : Except String T :=
  if i < 0 then .error "runtime error: index out of range"
  else
    match slice[i.toNat]? with
    | some x => .ok x
    | none => .error "runtime error: index out of range"

/-- Function `Contain` of `slice.go`. -/
def Contain [DecidableEq T] : List T → T → Bool
  | [], _ => false
  | item :: rest, target => if item = target then true else Contain rest target

/-- The loop `for i := 0; i < len(slice); i++` of `Map`, storing `iteratee(i, slice[i])`
at `result[i]`; `rest` is `slice[i:]`. -/
def mapLoop {U : Type v} (iteratee : Int → T → U) : List T → Nat → List U → List U
  | [], _, result => result
  | item :: rest, i, result =>
    mapLoop iteratee rest (i + 1) (result.set i (iteratee (i : Int) item))

/-- Function `Map` of `slice.go`; `zero` is the zero value of `U`, with which `make` fills
`result`. -/
def Map {U : Type v} (zero : U) (slice : List T) (iteratee : Int → T → U) : List U :=
  mapLoop iteratee slice 0 (List.replicate slice.length zero)

/-- The loop `for i, v := range orginSliceAfterMap` of `DifferenceBy`: `rest` holds the
projected values from index `i` on. -/
def differenceByLoop [DecidableEq T] (slice comparedSliceAfterMap : List T) :
    List T → Nat → List T → Except String (List T)
  | [], _, result => .ok result
  | v :: rest, i, result =>
    if !Contain comparedSliceAfterMap v then
      match index slice (i : Int) with
      | .ok x => differenceByLoop slice comparedSliceAfterMap rest (i + 1) (result ++ [x])
      | .error err => .error err
    else differenceByLoop slice comparedSliceAfterMap rest (i + 1) result

/-- Function `DifferenceBy` of `slice.go`; `zero` is the zero value of `T`. -/
def DifferenceBy [DecidableEq T] (zero : T) (slice comparedSlice : List T)
    (iteratee : Int → T → T) : Except String (List T) :=
  let orginSliceAfterMap := Map zero slice iteratee
  let comparedSliceAfterMap := Map zero comparedSlice iteratee
  differenceByLoop slice comparedSliceAfterMap orginSliceAfterMap 0 []

/-! ## GroupWith -/

/-- A Go map `map[K]V`, by its lookups: `m k` is `none` when the key `k` is absent. The
iteration order of a Go map is unspecified and is not represented. -/
def GoMap (K : Type v) (V : Type u) : Type (max u v) := K → Option V

/-- The empty map `make(map[K]V)`. -/
def GoMap.empty {K : Type v} {V : Type u} : GoMap K V := fun _ => none

/-- The assignment `m[k] = x`. -/
def GoMap.insert {K : Type v} {V : Type u} [DecidableEq K] (m : GoMap K V) (k : K) (x : V) :
    GoMap K V :=
  fun k2 => if k2 = k then some x else m k2

/-- Body of the loop of `GroupWith` on the variable `result`. Reading `result[key]` gives
the zero value, the nil slice, when the key is absent. -/
def groupWithStep {U : Type v} [DecidableEq U] (iteratee : T → U) (result : GoMap U (List T))
    (v : T) : GoMap U (List T) :=
  let key := iteratee v
  let result := if (result key).isSome then result else result.insert key []
  result.insert key ((result key).getD [] ++ [v])

/-- Function `GroupWith` of `slice.go`. -/
def GroupWith {U : Type v} [DecidableEq U] (slice : List T) (iteratee : T → U) :
    GoMap U (List T) :=
  slice.foldl (groupWithStep iteratee) GoMap.empty

/-! ## Drop, DropRight, DropWhile, DropRightWhile -/

/-- Function `Drop` of `slice.go`. -/
def Drop (slice : List T) (n : Int) : List T :=
  let size : Int := slice.length
  if size ≤ n then []
  else if n ≤ 0 then slice
  else [] ++ slice.drop n.toNat

/-- Function `DropRight` of `slice.go`. -/
def DropRight (slice : List T) (n : Int) : List T :=
  let size : Int := slice.length
  if size ≤ n then []
  else if n ≤ 0 then slice
  else [] ++ slice.take (size - n).toNat

/-- The loop `for ; i < len(slice); i++` of `DropWhile`: `rest` is `slice[i:]`, the value
is that of `i` when the loop is left. -/
def dropWhileLoop (predicate : T → Bool) : List T → Nat → Nat
  | [], i => i
  | x :: rest, i => if !predicate x then i else dropWhileLoop predicate rest (i + 1)

/-- Function `DropWhile` of `slice.go`. -/
def DropWhile (slice : List T) (predicate : T → Bool) : List T :=
  let i := dropWhileLoop predicate slice 0
  [] ++ slice.drop i

/-- The loop `for ; i >= 0; i--` of `DropRightWhile`, `k` being `i + 1`; the value is that
of `i` when the loop is left, `-1` when it ran to its end. -/
def dropRightWhileLoop (slice : List T) (predicate : T → Bool) : Nat → Except String Int
  | 0 => .ok (-1)
  | k + 1 =>
    match index slice (k : Int) with
    | .ok x => if !predicate x then .ok (k : Int) else dropRightWhileLoop slice predicate k
    | .error err => .error err

/-- Function `DropRightWhile` of `slice.go`. -/
def DropRightWhile (slice : List T) (predicate : T → Bool) : Except String (List T) :=
  match dropRightWhileLoop slice predicate slice.length with
  | .ok i => .ok ([] ++ slice.take (i + 1).toNat)
  | .error err => .error err

/-! ## ReduceBy and ReduceRight -/

/-- The `for i, v := range slice` loop of `ReduceBy`: `rest` is `slice[i:]`. -/
def reduceByLoop {U : Type v} (reducer : Int → T → U → U) : List T → Nat → U → U
  | [], _, accumulator => accumulator
  | item :: rest, i, accumulator =>
    reduceByLoop reducer rest (i + 1) (reducer (i : Int) item accumulator)

/-- Function `ReduceBy` of `slice.go`. -/
def ReduceBy {U : Type v} (slice : List T) (initial : U) (reducer : Int → T → U → U) : U :=
  reduceByLoop reducer slice 0 initial

/-- The loop `for i := len(slice) - 1; i >= 0; i--` of `ReduceRight`, `k` being `i + 1`. -/
def reduceRightLoop {U : Type v} (slice : List T) (reducer : Int → T → U → U) :
    Nat → U → Except String U
  | 0, accumulator => .ok accumulator
  | k + 1, accumulator =>
    match index slice (k : Int) with
    | .ok x => reduceRightLoop slice reducer k (reducer (k : Int) x accumulator)
    | .error err => .error err

/-- Function `ReduceRight` of `slice.go`. -/
def ReduceRight {U : Type v} (slice : List T) (initial : U) (reducer : Int → T → U → U) :
    Except String U :=
  reduceRightLoop slice reducer slice.length initial

/-- The left fold of the specification, written from its words: `a 0 = initial` and
`a (i+1) = f i s[i] (a i)` for `i < len s`. -/
def leftFoldSeq {U : Type v} (s : List T) (initial : U) (f : Int → T → U → U) : Nat → U
  | 0 => initial
  | i + 1 =>
    match s[i]? with
    | some x => f (i : Int) x (leftFoldSeq s initial f i)
    | none => leftFoldSeq s initial f i

/-- The mirrored fold of the specification: `b 0 = initial` and the step `k` visits the
index `len s - 1 - k`, `b (k+1) = f (len s - 1 - k) s[len s - 1 - k] (b k)`. -/
def rightFoldSeq {U : Type v} (s : List T) (initial : U) (f : Int → T → U → U) : Nat → U
  | 0 => initial
  | k + 1 =>
    match s[s.length - 1 - k]? with
    | some x => f ((s.length - 1 - k : Nat) : Int) x (rightFoldSeq s initial f k)
    | none => rightFoldSeq s initial f k

/-! ## Every, None, Some -/

/-- The `for i, v := range slice` loop of `Every`: `rest` is `slice[i:]`. -/
def everyLoop (predicate : Int → T → Bool) : List T → Nat → Bool
  | [], _ => true
  | v :: rest, i =>
    if !predicate (i : Int) v then false else everyLoop predicate rest (i + 1)

/-- Function `Every` of `slice.go`. -/
def Every (slice : List T) (predicate : Int → T → Bool) : Bool :=
  everyLoop predicate slice 0

/-- The `for i, v := range slice` loop of `None` on the counter `l`. -/
def noneLoop (predicate : Int → T → Bool) : List T → Nat → Int → Int
  | [], _, l => l
  | v :: rest, i, l =>
    noneLoop predicate rest (i + 1) (if !predicate (i : Int) v then l + 1 else l)

/-- Function `None` of `slice.go`. -/
def None (slice : List T) (predicate : Int → T → Bool) : Bool :=
  let l := noneLoop predicate slice 0 0
  decide (l = (slice.length : Int))

/-- The `for i, v := range slice` loop of `Some`. -/
def someLoop (predicate : Int → T → Bool) : List T → Nat → Bool
  | [], _ => false
  | v :: rest, i =>
    if predicate (i : Int) v then true else someLoop predicate rest (i + 1)

/-- Function `Some` of `slice.go`. -/
def Some (slice : List T) (predicate : Int → T → Bool) : Bool :=
  someLoop predicate slice 0

/-! ## Find and FindLast -/

/-- The `for i, v := range slice` loop of `Find`: the value of the variable `index` when
the loop is left, `-1` when no element was accepted; `rest` is `slice[i:]`. -/
def findLoop (predicate : Int → T → Bool) : List T → Nat → Int
  | [], _ => -1
  | v :: rest, i => if predicate (i : Int) v then (i : Int) else findLoop predicate rest (i + 1)

/-- Function `Find` of `slice.go`; `zero` is the zero value of `T`, the value of the named
result `v` that the loop variable shadows inside the loop only. -/
def Find (zero : T) (slice : List T) (predicate : Int → T → Bool) : Except String (T × Bool) :=
  let found := findLoop predicate slice 0
  if found = -1 then .ok (zero, false)
  else
    match index slice found with
    | .ok x => .ok (x, true)
    | .error err => .error err

/-- The loop `for i := len(slice) - 1; i >= 0; i--` of `FindLast`, `k` being `i + 1`: the
value of the variable `index` when the loop is left. -/
def findLastLoop (slice : List T) (predicate : Int → T → Bool) : Nat → Except String Int
  | 0 => .ok (-1)
  | k + 1 =>
    match index slice (k : Int) with
    | .ok x => if predicate (k : Int) x then .ok (k : Int) else findLastLoop slice predicate k
    | .error err => .error err

/-- Function `FindLast` of `slice.go`; `zero` is the zero value of `T`. -/
def FindLast (zero : T) (slice : List T) (predicate : Int → T → Bool) :
    Except String (T × Bool) :=
  match findLastLoop slice predicate slice.length with
  | .error err => .error err
  | .ok found =>
    if found = -1 then .ok (zero, false)
    else
      match index slice found with
      | .ok x => .ok (x, true)
      | .error err => .error err

/-! # Theorems -/

theorem reduceSeq_succ (s : List T) (f : Int → T → T → T) (initial : T) (i : Nat) (x : T)
    (h : s[i]? = some x) :
    reduceSeq s f initial (i + 1) = f (i : Int) (reduceSeq s f initial i) x := by
  simp [reduceSeq, h]

theorem reduceLoop_eq_reduceSeq (s : List T) (f : Int → T → T → T) (initial : T) :
    ∀ (rest pre : List T), pre ++ rest = s →
      reduceLoop f (pre.length : Int) rest (reduceSeq s f initial pre.length)
        = reduceSeq s f initial s.length := by
  intro rest
  induction rest with
  | nil =>
    intro pre h
    simp only [List.append_nil] at h
    subst h
    rfl
  | cons x rest ih =>
    intro pre h
    have hx : s[pre.length]? = some x := by
      subst h
      rw [List.getElem?_append_right (Nat.le_refl _)]
      simp
    have hstep := ih (pre ++ [x]) (by simpa using h)
    simp only [List.length_append, List.length_singleton] at hstep
    rw [reduceSeq_succ s f initial pre.length x hx] at hstep
    simp only [reduceLoop]
    have hcast : ((pre.length + 1 : Nat) : Int) = (pre.length : Int) + 1 := by push_cast; rfl
    rw [hcast] at hstep
    exact hstep

/-- Claim C1: `Reduce s f initial` is the index-aware left fold `r_n` with `r_0 = initial`
and `r_(i+1) = f i r_i s[i]`; on the empty sequence it is `initial`; and
`Reduce [1,2,3] (fun _ a b => a + b) 0 = 6` through the intermediate results 1, 3, 6. -/
theorem Reduce_eq_index_fold :
    (∀ (T : Type u) (s : List T) (f : Int → T → T → T) (initial : T),
        Reduce s f initial = reduceSeq s f initial s.length
        ∧ reduceSeq s f initial 0 = initial
        ∧ (∀ i (h : i < s.length),
            reduceSeq s f initial (i + 1) = f (i : Int) (reduceSeq s f initial i) (s.get ⟨i, h⟩))
        ∧ Reduce ([] : List T) f initial = initial)
    ∧ Reduce [1, 2, 3] (fun (_ : Int) (a b : Int) => a + b) 0 = 6
    ∧ reduceSeq [1, 2, 3] (fun (_ : Int) (a b : Int) => a + b) 0 1 = 1
    ∧ reduceSeq [1, 2, 3] (fun (_ : Int) (a b : Int) => a + b) 0 2 = 3
    ∧ reduceSeq [1, 2, 3] (fun (_ : Int) (a b : Int) => a + b) 0 3 = 6 := by
  refine ⟨?_, by decide, by decide, by decide, by decide⟩
  intro T s f initial
  refine ⟨?_, rfl, ?_, rfl⟩
  · cases s with
    | nil => rfl
    | cons x rest =>
      have h := reduceLoop_eq_reduceSeq (x :: rest) f initial rest [x] rfl
      have h1 : reduceSeq (x :: rest) f initial [x].length = f 0 initial x := by
        simp [reduceSeq]
      rw [h1] at h
      simpa [Reduce] using h
  · intro i h
    apply reduceSeq_succ
    simp [List.getElem?_eq_getElem h]

theorem Reduce_eq_index_fold_witness :
    reduceSeq [1, 2, 3] (fun (_ : Int) (a b : Int) => a + b) 0 (1 + 1)
      = (fun (_ : Int) (a b : Int) => a + b) ((1 : Nat) : Int)
          (reduceSeq [1, 2, 3] (fun (_ : Int) (a b : Int) => a + b) 0 1)
          ([1, 2, 3].get ⟨1, by decide⟩) :=
  (Reduce_eq_index_fold.1 Int [1, 2, 3] (fun (_ : Int) (a b : Int) => a + b) 0).2.2.1 1
    (by decide)

/-! ## Chunk and Concat -/

theorem chunkStep_nil (size : Int) (item : T) : chunkStep size [] item = [[item]] := by
  simp [chunkStep]

theorem chunkStep_snoc (size : Int) (gs : List (List T)) (g : List T) (item : T) :
    chunkStep size (gs ++ [g]) item
      = if (g.length : Int) = size then gs ++ [g] ++ [[item]] else gs ++ [g ++ [item]] := by
  unfold chunkStep
  simp only [List.length_append, List.length_singleton, Nat.add_sub_cancel]
  have hget : (gs ++ [g]).getD gs.length [] = g := by
    rw [List.getD_append_right _ _ _ _ (Nat.le_refl _)]; simp
  rw [hget]
  by_cases h : (g.length : Int) = size
  · simp only [h, or_true, if_true, Nat.add_sub_cancel]
    have h2 : (gs ++ [g] ++ [[]]).getD (gs.length + 1) [] = ([] : List T) := by
      rw [List.getD_append_right _ _ _ _ (by simp)]; simp
    rw [h2]
    rw [List.set_append_right _ _ (by simp)]
    simp
  · have h0 : ¬ (gs.length + 1 = 0 ∨ (g.length : Int) = size) := by
      rintro (h1 | h1)
      · omega
      · exact h h1
    have h1 : ¬ (gs.length + 1 = 0 ∨ False) := by simp
    simp only [h, h1, if_false, Nat.add_sub_cancel, hget]
    rw [List.set_append_right _ _ (Nat.le_refl _)]
    simp

theorem chunkStep_flatten (size : Int) (gs : List (List T)) (item : T) :
    (chunkStep size gs item).flatten = gs.flatten ++ [item] := by
  rcases List.eq_nil_or_concat gs with h | ⟨init, last, h⟩
  · subst h
    simp [chunkStep_nil]
  · subst h
    rw [List.concat_eq_append, chunkStep_snoc]
    split <;> simp

theorem chunk_fold_flatten (size : Int) (s : List T) :
    ∀ gs : List (List T), (s.foldl (chunkStep size) gs).flatten = gs.flatten ++ s := by
  induction s with
  | nil => intro gs; simp
  | cons x rest ih =>
    intro gs
    simp only [List.foldl_cons]
    rw [ih, chunkStep_flatten]
    simp

theorem Concat_eq (slice : List T) (slices : List (List T)) :
    Concat slice slices = slice ++ slices.flatten := by
  unfold Concat
  simp only [List.nil_append]
  induction slices generalizing slice with
  | nil => simp
  | cons v rest ih =>
    simp only [List.foldl_cons, List.flatten_cons]
    rw [ih]
    simp

theorem concatAll_eq_flatten (groups : List (List T)) : concatAll groups = groups.flatten := by
  cases groups with
  | nil => rfl
  | cons first others => simp [concatAll, Concat_eq]

/-- Shape of the groups built by the loop of `Chunk` on a non-empty input with a positive
size: full groups followed by a last group of between 1 and `size` elements. -/
theorem chunk_fold_shape (size : Int) (hsize : 0 < size) (s : List T) (hs : s ≠ []) :
    ∃ init last, s.foldl (chunkStep size) [] = init ++ [last]
      ∧ (∀ g ∈ init, (g.length : Int) = size)
      ∧ 1 ≤ last.length ∧ (last.length : Int) ≤ size := by
  induction s using List.reverseRecOn with
  | nil => exact absurd rfl hs
  | append_singleton pre a ih =>
    rw [List.foldl_append]
    simp only [List.foldl_cons, List.foldl_nil]
    by_cases hpre : pre = []
    · subst hpre
      refine ⟨[], [a], ?_, ?_, ?_, ?_⟩
      · simp [chunkStep_nil]
      · intro g hg; simp at hg
      · simp
      · simp; omega
    · obtain ⟨init, last, hfold, hfull, h1, h2⟩ := ih hpre
      rw [hfold, chunkStep_snoc]
      by_cases hlast : (last.length : Int) = size
      · refine ⟨init ++ [last], [a], ?_, ?_, ?_, ?_⟩
        · simp [hlast]
        · intro g hg
          rcases List.mem_append.mp hg with hg | hg
          · exact hfull g hg
          · simp at hg; subst hg; exact hlast
        · simp
        · simp; omega
      · refine ⟨init, last ++ [a], ?_, hfull, ?_, ?_⟩
        · simp [hlast]
        · simp
        · simp only [List.length_append, List.length_singleton]
          push_cast
          omega

theorem sum_length_full (size : Int) (init : List (List T))
    (h : ∀ g ∈ init, (g.length : Int) = size) :
    (((init.map List.length).sum : Nat) : Int) = (init.length : Int) * size := by
  induction init with
  | nil => simp
  | cons g rest ih =>
    have hg := h g (by simp)
    have hrest := ih (fun g' hg' => h g' (by simp [hg']))
    simp only [List.map_cons, List.sum_cons, List.length_cons]
    rw [Nat.cast_add, hrest, hg]
    push_cast
    ring

/-- Claim C2: for every sequence `s` and every size `k > 0`, concatenating in order the
groups of `Chunk s k` with `Concat` (first group first, the others as the rest; the empty
sequence when there is no group) gives back `s`. -/
theorem Concat_Chunk_reconstructs (s : List T) (k : Int) (hk : 0 < k) :
    concatAll (Chunk s k) = s := by
  rw [concatAll_eq_flatten]
  unfold Chunk
  split
  · rename_i h
    rcases h with h | h
    · have : s = [] := List.length_eq_zero.mp h
      simp [this]
    · omega
  · rw [chunk_fold_flatten]
    simp

theorem Concat_Chunk_reconstructs_witness :
    (0 : Int) < 2 ∧ concatAll (Chunk [1, 2, 3, 4, 5] 2) = [1, 2, 3, 4, 5] :=
  ⟨by decide, Concat_Chunk_reconstructs [1, 2, 3, 4, 5] 2 (by decide)⟩

theorem Chunk_groups (s : List T) (size : Int) (hsize : 0 < size) (hs : s ≠ []) :
    ∃ init last, Chunk s size = init ++ [last]
      ∧ (∀ g ∈ init, (g.length : Int) = size)
      ∧ 1 ≤ last.length ∧ (last.length : Int) ≤ size
      ∧ (s.length : Int) = (init.length : Int) * size + (last.length : Int) := by
  obtain ⟨init, last, hfold, hfull, h1, h2⟩ := chunk_fold_shape size hsize s hs
  have hC : Chunk s size = init ++ [last] := by
    unfold Chunk
    have hlen : ¬ (s.length = 0 ∨ size ≤ 0) := by
      rintro (h | h)
      · exact hs (List.length_eq_zero.mp h)
      · omega
    rw [if_neg hlen, hfold]
  refine ⟨init, last, hC, hfull, h1, h2, ?_⟩
  have hflat := chunk_fold_flatten size s ([] : List (List T))
  rw [hfold] at hflat
  simp only [List.flatten_nil, List.nil_append] at hflat
  have hl := congrArg List.length hflat
  rw [List.length_flatten] at hl
  simp only [List.map_append, List.sum_append, List.map_cons, List.map_nil, List.sum_cons,
    List.sum_nil, Nat.add_zero] at hl
  rw [← hl]
  push_cast
  rw [← sum_length_full size init hfull]
  push_cast
  rfl

/-- Claim C3: if `size <= 0` or `s` is empty, `Chunk s size` has no group; otherwise it has
`ceil (len s / size)` groups, every group but the last has exactly `size` elements and the
last one between 1 and `size`; and `Chunk [1,2,3,4,5] 2 = [[1,2],[3,4],[5]]`. -/
theorem Chunk_shape :
    (∀ (T : Type u) (s : List T) (size : Int),
      ((size ≤ 0 ∨ s = []) → Chunk s size = [])
      ∧ (¬ (size ≤ 0 ∨ s = []) →
          ((Chunk s size).length : Int) = ⌈(s.length : ℚ) / (size : ℚ)⌉
          ∧ (∀ i (h : i < (Chunk s size).length), i + 1 < (Chunk s size).length →
              ((((Chunk s size).get ⟨i, h⟩).length : Nat) : Int) = size)
          ∧ (∃ last, (Chunk s size).getLast? = some last
              ∧ 1 ≤ last.length ∧ (last.length : Int) ≤ size)))
    ∧ Chunk [1, 2, 3, 4, 5] 2 = [[1, 2], [3, 4], [5]] := by
  refine ⟨?_, by decide⟩
  intro T s size
  constructor
  · intro h
    unfold Chunk
    rw [if_pos]
    rcases h with h | h
    · exact Or.inr h
    · exact Or.inl (by simp [h])
  · intro h
    have hsize : 0 < size := by
      by_contra hc
      exact h (Or.inl (by omega))
    have hs : s ≠ [] := fun hc => h (Or.inr hc)
    obtain ⟨init, last, hC, hfull, h1, h2, hlen⟩ := Chunk_groups s size hsize hs
    rw [hC]
    refine ⟨?_, ?_, ?_⟩
    · symm
      rw [Int.ceil_eq_iff]
      have hq : (0 : ℚ) < (size : ℚ) := by exact_mod_cast hsize
      have hn : ((s.length : ℚ)) = (init.length : ℚ) * (size : ℚ) + (last.length : ℚ) := by
        exact_mod_cast hlen
      have hl1 : (1 : ℚ) ≤ (last.length : ℚ) := by exact_mod_cast h1
      have hl2 : (last.length : ℚ) ≤ (size : ℚ) := by exact_mod_cast h2
      simp only [List.length_append, List.length_singleton]
      push_cast
      constructor
      · rw [lt_div_iff₀ hq]
        nlinarith
      · rw [div_le_iff₀ hq]
        nlinarith
    · intro i hi hi2
      simp only [List.length_append, List.length_singleton] at hi2
      have hi3 : i < init.length := by omega
      have hget : (init ++ [last]).get ⟨i, hi⟩ = init.get ⟨i, hi3⟩ := by
        simp [List.getElem_append_left hi3]
      rw [hget]
      exact hfull _ (List.get_mem _ _ _)
    · exact ⟨last, by simp, h1, h2⟩

theorem Chunk_shape_witness :
    ((Chunk [1, 2, 3, 4, 5] (2 : Int)).length : Int) = ⌈((5 : Nat) : ℚ) / ((2 : Int) : ℚ)⌉ :=
  ((Chunk_shape.1 Nat [1, 2, 3, 4, 5] 2).2 (by decide)).1

/-! ## DeleteAt -/

/-- Claim C4: with `start < 0`, `start >= len s` or `end <= start` the contents of
`DeleteAt s start end` are those of `s`; otherwise they are `s[0:start]` followed by
`s[min end (len s):]`; without `end` the contents are those of `DeleteAt s start (start+1)`;
and `DeleteAt [1,2,3,4,5] 1 3 = [1,4,5]`. -/
theorem DeleteAt_contents :
    (∀ (T : Type u) (s : List T) (start e : Int) (more : List Int),
      ((start < 0 ∨ start ≥ s.length ∨ e ≤ start) → DeleteAt s start (e :: more) = s)
      ∧ (¬ (start < 0 ∨ start ≥ s.length ∨ e ≤ start) →
          DeleteAt s start (e :: more)
            = s.take start.toNat ++ s.drop (min e (s.length : Int)).toNat)
      ∧ DeleteAt s start [] = DeleteAt s start [start + 1])
    ∧ DeleteAt [1, 2, 3, 4, 5] 1 [3] = [1, 4, 5] := by
  refine ⟨?_, by decide⟩
  intro T s start e more
  refine ⟨?_, ?_, ?_⟩
  · intro h
    unfold DeleteAt
    simp only
    by_cases h1 : start < 0 ∨ start ≥ (s.length : Int)
    · rw [if_pos h1]
    · rw [if_neg h1]
      have h2 : e ≤ start := by
        rcases h with h | h | h
        · exact absurd (Or.inl h) h1
        · exact absurd (Or.inr h) h1
        · exact h
      rw [if_pos h2]
  · intro h
    unfold DeleteAt
    simp only
    have h1 : ¬ (start < 0 ∨ start ≥ (s.length : Int)) := by
      rintro (h1 | h1)
      · exact h (Or.inl h1)
      · exact h (Or.inr (Or.inl h1))
    have h2 : ¬ e ≤ start := fun h2 => h (Or.inr (Or.inr h2))
    rw [if_neg h1, if_neg h2]
    by_cases h3 : e > (s.length : Int)
    · rw [if_pos h3, min_eq_right (le_of_lt h3)]
    · rw [if_neg h3, min_eq_left (not_lt.mp h3)]
  · unfold DeleteAt
    simp only
    by_cases h1 : start < 0 ∨ start ≥ (s.length : Int)
    · rw [if_pos h1, if_pos h1]
    · rw [if_neg h1, if_neg h1]
      have h2 : ¬ start + 1 ≤ start := by omega
      have h3 : ¬ start + 1 > (s.length : Int) := by omega
      rw [if_neg h2, if_neg h3]
      by_cases h4 : start = (s.length : Int) - 1
      · rw [if_pos h4]
        have h5 : (start + 1).toNat = s.length := by omega
        rw [h5, List.drop_length, List.append_nil]
      · rw [if_neg h4]

theorem DeleteAt_contents_witness :
    DeleteAt [1, 2, 3, 4, 5] 1 [3]
      = [1, 2, 3, 4, 5].take (1 : Int).toNat
        ++ [1, 2, 3, 4, 5].drop (min (3 : Int) (([1, 2, 3, 4, 5] : List Nat).length : Int)).toNat :=
  (DeleteAt_contents.1 Nat [1, 2, 3, 4, 5] 1 3 []).2.1 (by decide)

/-! ## Repeat -/

theorem fold_set_range (item : T) (k : Nat) :
    ∀ r : List T, k ≤ r.length →
      (List.range k).foldl (fun r i => r.set i item) r = List.replicate k item ++ r.drop k := by
  induction k with
  | zero => intro r _; simp
  | succ k ih =>
    intro r hk
    rw [List.range_succ, List.foldl_append, ih r (by omega)]
    simp only [List.foldl_cons, List.foldl_nil]
    rw [List.set_append_right _ _ (by simp)]
    simp only [List.length_replicate, Nat.sub_self]
    have hdrop : r.drop k = (r.get ⟨k, by omega⟩) :: r.drop (k + 1) := by
      simp [List.drop_eq_getElem_cons]
    rw [hdrop]
    simp only [List.set_cons_zero]
    rw [List.replicate_succ', List.append_assoc]
    rfl

theorem Repeat_of_inRange (maxLen : Nat) (zero item : T) (n : Int) (hn : 0 ≤ n)
    (hmax : n ≤ (maxLen : Int)) :
    Repeat maxLen zero item n = .ok (List.replicate n.toNat item) := by
  unfold Repeat makeSlice
  rw [if_neg (by omega)]
  simp only
  rw [fold_set_range item _ _ (Nat.le_refl _)]
  simp

theorem Repeat_of_outOfRange (maxLen : Nat) (zero item : T) (n : Int)
    (hn : n < 0 ∨ (maxLen : Int) < n) :
    Repeat maxLen zero item n = .error "runtime error: makeslice: len out of range" := by
  unfold Repeat makeSlice
  rw [if_pos hn]

/-- Claim C5, as the code has it: for `0 <= n <= maxLen`, where `maxLen` is the largest
length `make` accepts for a `[]T`, `Repeat item n` returns a sequence of length `n` (empty
for `n = 0`) whose elements all equal `item`; for `n < 0` and for `n > maxLen` it does not
return: `make` panics with "makeslice: len out of range". -/
theorem Repeat_spec (maxLen : Nat) (zero item : T) (n : Int) :
    (0 ≤ n → n ≤ (maxLen : Int) →
      ∃ r, Repeat maxLen zero item n = .ok r ∧ (r.length : Int) = n ∧ ∀ x ∈ r, x = item)
    ∧ (n < 0 ∨ (maxLen : Int) < n →
      Repeat maxLen zero item n = .error "runtime error: makeslice: len out of range") := by
  constructor
  · intro hn hmax
    refine ⟨List.replicate n.toNat item, Repeat_of_inRange maxLen zero item n hn hmax, ?_, ?_⟩
    · simp only [List.length_replicate]
      omega
    · intro x hx
      exact List.eq_of_mem_replicate hx
  · exact Repeat_of_outOfRange maxLen zero item n

theorem Repeat_spec_witness :
    (((0 : Int) ≤ 3 ∧ (3 : Int) ≤ ((2 ^ 45 : Nat) : Int))
      ∧ ∃ r, Repeat (2 ^ 45) (0 : Int) 7 3 = .ok r ∧ (r.length : Int) = 3 ∧ ∀ x ∈ r, x = 7)
    ∧ (((-1 : Int) < 0 ∨ ((2 ^ 45 : Nat) : Int) < -1)
      ∧ Repeat (2 ^ 45) (0 : Int) 7 (-1)
          = .error "runtime error: makeslice: len out of range")
    ∧ (((2 ^ 62 : Int) < 0 ∨ ((2 ^ 45 : Nat) : Int) < 2 ^ 62)
      ∧ Repeat (2 ^ 45) (0 : Int) 7 (2 ^ 62)
          = .error "runtime error: makeslice: len out of range") :=
  ⟨⟨⟨by decide, by decide⟩, (Repeat_spec (2 ^ 45) 0 7 3).1 (by decide) (by decide)⟩,
    ⟨by decide, (Repeat_spec (2 ^ 45) 0 7 (-1)).2 (by decide)⟩,
    ⟨by decide, (Repeat_spec (2 ^ 45) 0 7 (2 ^ 62)).2 (by decide)⟩⟩

/-- Claim C5 as stated fails at `n = -1`: whatever the allocation limit, `Repeat 7 (-1)`
panics instead of returning an empty sequence. -/
theorem Repeat_negative_not_empty :
    Repeat (2 ^ 45) (0 : Int) 7 (-1) = .error "runtime error: makeslice: len out of range"
    ∧ ¬ ∃ (maxLen : Nat) (r : List Int), Repeat maxLen (0 : Int) 7 (-1) = .ok r ∧ r.length = 0 := by
  refine ⟨Repeat_of_outOfRange (2 ^ 45) (0 : Int) 7 (-1) (Or.inl (by decide)), ?_⟩
  rintro ⟨maxLen, r, hr, _⟩
  rw [Repeat_of_outOfRange maxLen (0 : Int) 7 (-1) (Or.inl (by decide))] at hr
  cases hr

/-! ## Replace -/

theorem wrapInt_of_range (x : Int) (h1 : -2 ^ 63 ≤ x) (h2 : x < 2 ^ 63) : wrapInt x = x := by
  unfold wrapInt
  norm_num at h1 h2 ⊢
  omega

theorem wrapInt_emod (x : Int) : wrapInt x % 2 ^ 64 = x % 2 ^ 64 := by
  unfold wrapInt
  norm_num
  omega

section ReplaceLemmas

variable [DecidableEq T]

theorem replace_fold_eq (old new : T) :
    ∀ (rest pre : List T) (n : Int),
      ((List.range' pre.length rest.length).foldl (replaceStep old new) (pre ++ rest, n)).1
        = pre ++ replaceLoop old new rest n := by
  intro rest
  induction rest with
  | nil => intro pre n; simp [replaceLoop]
  | cons x rest ih =>
    intro pre n
    have hget : (pre ++ x :: rest)[pre.length]? = some x := by
      rw [List.getElem?_append_right (Nat.le_refl _)]
      simp
    simp only [List.length_cons, List.range'_succ, List.foldl_cons]
    by_cases hc : x = old ∧ n ≠ 0
    · have hstep : replaceStep old new (pre ++ x :: rest, n) pre.length
          = ((pre ++ [new]) ++ rest, wrapInt (n - 1)) := by
        unfold replaceStep
        simp only [hget]
        rw [if_pos ⟨by rw [hc.1], hc.2⟩]
        rw [List.set_append_right _ _ (Nat.le_refl _)]
        simp
      rw [hstep]
      have h := ih (pre ++ [new]) (wrapInt (n - 1))
      simp only [List.length_append, List.length_singleton] at h
      rw [h]
      simp [replaceLoop, hc]
    · have hstep : replaceStep old new (pre ++ x :: rest, n) pre.length
          = ((pre ++ [x]) ++ rest, n) := by
        unfold replaceStep
        simp only [hget]
        rw [if_neg]
        · simp
        · rintro ⟨h1, h2⟩
          exact hc ⟨by injection h1, h2⟩
      rw [hstep]
      have h := ih (pre ++ [x]) n
      simp only [List.length_append, List.length_singleton] at h
      rw [h]
      simp [replaceLoop, hc]

theorem replaceLoop_spec (s : List T) (old new : T) (n : Int) :
    Replace s old new n = replaceLoop old new s n := by
  have h := replace_fold_eq old new s [] n
  simp only [List.length_nil, List.nil_append] at h
  unfold Replace
  simp only
  rw [List.range_eq_range']
  exact h

theorem replaceLoop_length (old new : T) :
    ∀ (s : List T) (n : Int), (replaceLoop old new s n).length = s.length := by
  intro s
  induction s with
  | nil => intro n; rfl
  | cons x rest ih =>
    intro n
    unfold replaceLoop
    split <;> simp [ih]

theorem Count_eq_count (item : T) (s : List T) : Count s item = (List.count item s : Int) := by
  have h : ∀ (l : List T) (acc : Int),
      l.foldl (fun count v => if item = v then count + 1 else count) acc
        = acc + (List.count item l : Int) := by
    intro l
    induction l with
    | nil => intro acc; simp
    | cons x rest ih =>
      intro acc
      simp only [List.foldl_cons]
      rw [ih]
      by_cases hx : item = x
      · subst hx
        simp only [if_true, List.count_cons_self]
        push_cast
        ring
      · rw [if_neg hx, List.count_cons_of_ne hx]
  unfold Count
  rw [h]
  simp

theorem replaceLoop_nonneg (old new : T) :
    ∀ (s : List T) (n : Int), 0 ≤ n → n < 2 ^ 63 → ∀ i : Nat,
      (replaceLoop old new s n)[i]?
        = (s[i]?).map (fun x =>
            if x = old ∧ ((List.count old (s.take i) : Nat) : Int) < n then new else x) := by
  intro s
  induction s with
  | nil => intro n _ _ i; simp [replaceLoop]
  | cons x rest ih =>
    intro n h0 h1 i
    by_cases hc : x = old ∧ n ≠ 0
    · have hw : wrapInt (n - 1) = n - 1 :=
        wrapInt_of_range (n - 1) (by norm_num at h1 ⊢; omega) (by norm_num at h1 ⊢; omega)
      have hloop : replaceLoop old new (x :: rest) n
          = new :: replaceLoop old new rest (n - 1) := by
        rw [replaceLoop, if_pos hc, hw]
      rw [hloop]
      cases i with
      | zero =>
        have hn : 0 < n := by omega
        simp [hc.1, hn]
      | succ j =>
        have := ih (n - 1) (by omega) (by omega) j
        have hx := hc.1
        subst hx
        simp only [List.getElem?_cons_succ, List.take_succ_cons]
        rw [this]
        simp only [List.count_cons_self]
        congr 1
        funext y
        have : ((List.count x (List.take j rest) : Nat) : Int) < n - 1
            ↔ (((List.count x (List.take j rest) + 1 : Nat)) : Int) < n := by
          push_cast
          omega
        simp only [this]
    · have hloop : replaceLoop old new (x :: rest) n = x :: replaceLoop old new rest n := by
        rw [replaceLoop, if_neg hc]
      rw [hloop]
      cases i with
      | zero =>
        simp only [List.getElem?_cons_zero, List.take_zero, List.count_nil, Option.map_some']
        rw [if_neg]
        rintro ⟨hx, hn⟩
        exact hc ⟨hx, by simp at hn; omega⟩
      | succ j =>
        have := ih n h0 h1 j
        simp only [List.getElem?_cons_succ, List.take_succ_cons]
        rw [this]
        congr 1
        funext y
        by_cases hx : x = old
        · have hn : n = 0 := by
            by_contra hne
            exact hc ⟨hx, hne⟩
          subst hn
          have h1 : ¬ ((List.count old (List.take j rest) : Nat) : Int) < 0 := by omega
          have h2 : ¬ ((List.count old (x :: List.take j rest) : Nat) : Int) < 0 := by omega
          simp only [h1, h2, and_false]
        · simp only [List.count_cons_of_ne (Ne.symm hx)]

theorem replaceLoop_neg (old new : T) :
    ∀ (s : List T) (n : Int), (s.length : Int) < n % 2 ^ 64 →
      replaceLoop old new s n = s.map (fun x => if x = old then new else x) := by
  intro s
  induction s with
  | nil => intro n _; rfl
  | cons x rest ih =>
    intro n h
    have hn : n ≠ 0 := by
      rintro rfl
      simp at h
      omega
    have hlen : ((x :: rest).length : Int) = (rest.length : Int) + 1 := by simp
    rw [hlen] at h
    by_cases hx : x = old
    · have hrest : (rest.length : Int) < wrapInt (n - 1) % 2 ^ 64 := by
        rw [wrapInt_emod]
        norm_num at h ⊢
        omega
      rw [replaceLoop, if_pos ⟨hx, hn⟩, ih _ hrest]
      simp [hx]
    · have hrest : (rest.length : Int) < n % 2 ^ 64 := by omega
      rw [replaceLoop, if_neg (fun hc => hx hc.1), ih _ hrest]
      simp [hx]

theorem occurrences_snoc (s : List T) (a old : T) :
    occurrences (s ++ [a]) old
      = occurrences s old ++ (if a = old then [s.length] else []) := by
  unfold occurrences
  simp only [List.length_append, List.length_singleton, List.range_succ, List.filter_append]
  congr 1
  · apply List.filter_congr
    intro i hi
    have hi2 : i < s.length := List.mem_range.mp hi
    rw [List.getElem?_append_left hi2]
  · have hget : (s ++ [a])[s.length]? = some a := by
      rw [List.getElem?_append_right (Nat.le_refl _)]
      simp
    by_cases ha : a = old
    · simp [hget, ha]
    · simp [hget, ha]

theorem occurrences_lt (s : List T) (old : T) (i : Nat) (h : i ∈ occurrences s old) :
    i < s.length := by
  unfold occurrences at h
  exact List.mem_range.mp (List.mem_filter.mp h).1

theorem occurrences_length (old : T) (s : List T) :
    (occurrences s old).length = List.count old s := by
  induction s using List.reverseRecOn with
  | nil => rfl
  | append_singleton pre a ih =>
    rw [occurrences_snoc, List.length_append, ih, List.count_append]
    by_cases ha : a = old
    · subst ha
      simp
    · simp [ha, List.count_cons_of_ne (Ne.symm ha)]

/-- The first `m` occurrence indices are the occurrences preceded by fewer than `m`
others. -/
theorem mem_take_occurrences (old : T) (s : List T) :
    ∀ (i m : Nat), i ∈ (occurrences s old).take m
      ↔ s[i]? = some old ∧ List.count old (s.take i) < m := by
  induction s using List.reverseRecOn with
  | nil => intro i m; simp [occurrences]
  | append_singleton pre a ih =>
    intro i m
    rw [occurrences_snoc, List.take_append_eq_append_take, List.mem_append, ih,
      occurrences_length]
    rcases Nat.lt_trichotomy i pre.length with hi | hi | hi
    · have h1 : (pre ++ [a])[i]? = pre[i]? := List.getElem?_append_left hi
      have h2 : (pre ++ [a]).take i = pre.take i := by
        rw [List.take_append_of_le_length (Nat.le_of_lt hi)]
      rw [h1, h2]
      constructor
      · rintro (h | h)
        · exact h
        · exfalso
          have hmem := List.mem_of_mem_take h
          split at hmem
          · simp at hmem; omega
          · simp at hmem
      · intro h
        exact Or.inl h
    · subst hi
      have h1 : (pre ++ [a])[pre.length]? = some a := by
        rw [List.getElem?_append_right (Nat.le_refl _)]
        simp
      have h2 : (pre ++ [a]).take pre.length = pre := by
        rw [List.take_append_of_le_length (Nat.le_refl _), List.take_length]
      have h3 : pre[pre.length]? = none := List.getElem?_eq_none (Nat.le_refl _)
      rw [h1, h2, h3]
      constructor
      · rintro (h | h)
        · exact absurd h.1 (by simp)
        · by_cases ha : a = old
          · rw [if_pos ha] at h
            refine ⟨by rw [ha], ?_⟩
            by_contra hc
            have : m - List.count old pre = 0 := by omega
            rw [this] at h
            simp at h
          · rw [if_neg ha] at h
            simp at h
      · rintro ⟨ha, hm⟩
        right
        have ha2 : a = old := by injection ha
        rw [if_pos ha2]
        have : m - List.count old pre = (m - List.count old pre - 1) + 1 := by omega
        rw [this]
        simp
    · have h1 : (pre ++ [a])[i]? = none := by
        apply List.getElem?_eq_none
        simp
        omega
      have h3 : pre[i]? = none := List.getElem?_eq_none (Nat.le_of_lt hi)
      rw [h1, h3]
      constructor
      · rintro (h | h)
        · exact absurd h.1 (by simp)
        · exfalso
          have hmem := List.mem_of_mem_take h
          split at hmem
          · simp at hmem; omega
          · simp at hmem
      · rintro ⟨h, _⟩
        exact absurd h (by simp)

theorem count_take_lt (old : T) (s : List T) (i : Nat) (h : s[i]? = some old) :
    List.count old (s.take i) < List.count old s := by
  have hi : i < s.length := by
    by_contra hc
    rw [List.getElem?_eq_none (Nat.le_of_not_lt hc)] at h
    cases h
  have hs : s = s.take i ++ s.get ⟨i, hi⟩ :: s.drop (i + 1) := by
    rw [List.get_eq_getElem, ← List.drop_eq_getElem_cons hi, List.take_append_drop]
  have hg : s.get ⟨i, hi⟩ = old := by
    rw [List.getElem?_eq_getElem hi] at h
    simpa using h
  rw [hg] at hs
  conv_rhs => rw [hs]
  rw [List.count_append, List.count_cons_self]
  omega

theorem Replace_getElem (s : List T) (old new : T) (n : Int)
    (hlen : (s.length : Int) < 2 ^ 63) (hlo : -2 ^ 63 ≤ n) (hhi : n < 2 ^ 63)
    (i : Nat) (h : i < s.length) :
    (Replace s old new n)[i]?
      = some (if s.get ⟨i, h⟩ = old ∧ (n < 0 ∨ Count (s.take i) old < n) then new
              else s.get ⟨i, h⟩) := by
  rw [replaceLoop_spec]
  by_cases hn : n < 0
  · rw [replaceLoop_neg old new s n (by norm_num at hlen hlo ⊢; omega)]
    simp [List.getElem?_eq_getElem h, hn]
  · rw [replaceLoop_nonneg old new s n (by omega) hhi i, List.getElem?_eq_getElem h,
      Count_eq_count]
    simp [hn]

/-- Claim C6: `Replace s old new n` has the length of `s` and holds, at each index `i`,
`new` if `s[i] == old` and (`n < 0` or fewer than `n` occurrences of `old` precede `i`), and
`s[i]` otherwise; so `n == 0` gives a copy of `s`, `n < 0` and `ReplaceAll` replace every
occurrence, and `n > 0` replaces exactly the leftmost `min n (Count s old)` occurrences.
The bounds are those of a Go slice length and a Go `int`. -/
theorem Replace_spec (s : List T) (old new : T) (n : Int)
    (hlen : (s.length : Int) < 2 ^ 63) (hlo : -2 ^ 63 ≤ n) (hhi : n < 2 ^ 63) :
    (Replace s old new n).length = s.length
    ∧ (∀ i (h : i < s.length),
        (Replace s old new n)[i]?
          = some (if s.get ⟨i, h⟩ = old ∧ (n < 0 ∨ Count (s.take i) old < n) then new
                  else s.get ⟨i, h⟩))
    ∧ (n = 0 → Replace s old new n = s)
    ∧ (n < 0 → Replace s old new n = s.map (fun x => if x = old then new else x))
    ∧ ReplaceAll s old new = s.map (fun x => if x = old then new else x)
    ∧ (0 < n → ∀ i (h : i < s.length),
        (Replace s old new n)[i]?
          = some (if i ∈ (occurrences s old).take (min n (Count s old)).toNat then new
                  else s.get ⟨i, h⟩)) := by
  have hlenR : (Replace s old new n).length = s.length := by
    rw [replaceLoop_spec, replaceLoop_length]
  refine ⟨hlenR, Replace_getElem s old new n hlen hlo hhi, ?_, ?_, ?_, ?_⟩
  · intro hn
    apply List.ext_getElem? 
    intro i
    by_cases hi : i < s.length
    · rw [Replace_getElem s old new n hlen hlo hhi i hi, List.getElem?_eq_getElem hi]
      have h1 : ¬ (n < 0) := by omega
      have h2 : ¬ (Count (s.take i) old < n) := by
        rw [Count_eq_count]
        omega
      simp [h1, h2]
    · rw [List.getElem?_eq_none (by omega), List.getElem?_eq_none (by omega)]
  · intro hn
    rw [replaceLoop_spec]
    exact replaceLoop_neg old new s n (by norm_num at hlen hlo ⊢; omega)
  · unfold ReplaceAll
    rw [replaceLoop_spec]
    exact replaceLoop_neg old new s (-1) (by norm_num at hlen ⊢; omega)
  · intro hn i hi
    rw [Replace_getElem s old new n hlen hlo hhi i hi]
    congr 1
    apply if_congr ?_ rfl rfl
    rw [mem_take_occurrences, List.getElem?_eq_getElem hi, Count_eq_count, Count_eq_count]
    have hneg : ¬ (n < 0) := by omega
    by_cases hx : s.get ⟨i, hi⟩ = old
    · have hx2 : s[i]? = some old := by
        rw [List.getElem?_eq_getElem hi]
        simpa using hx
      have hlt := count_take_lt old s i hx2
      have hiff : ((List.count old (List.take i s) : Nat) : Int) < n
          ↔ List.count old (List.take i s)
              < (min n ((List.count old s : Nat) : Int)).toNat := by
        omega
      have hx3 : s[i] = old := by simpa using hx
      simp only [hx, hneg, false_or, true_and, hiff, hx3]
    · have hx3 : ¬ s[i] = old := by simpa using hx
      simp [hx, hx3]

theorem Replace_spec_witness :
    (Replace [1, 2, 1, 1] 1 9 2).length = [1, 2, 1, 1].length
    ∧ (∀ i (h : i < [1, 2, 1, 1].length),
        (Replace [1, 2, 1, 1] 1 9 2)[i]?
          = some (if [1, 2, 1, 1].get ⟨i, h⟩ = 1
                    ∧ ((2 : Int) < 0 ∨ Count ([1, 2, 1, 1].take i) 1 < 2) then 9
                  else [1, 2, 1, 1].get ⟨i, h⟩))
    ∧ ((2 : Int) = 0 → Replace [1, 2, 1, 1] 1 9 2 = [1, 2, 1, 1])
    ∧ ((2 : Int) < 0 → Replace [1, 2, 1, 1] 1 9 2
        = [1, 2, 1, 1].map (fun x => if x = 1 then 9 else x))
    ∧ ReplaceAll [1, 2, 1, 1] 1 9 = [1, 2, 1, 1].map (fun x => if x = 1 then 9 else x)
    ∧ ((0 : Int) < 2 → ∀ i (h : i < [1, 2, 1, 1].length),
        (Replace [1, 2, 1, 1] 1 9 2)[i]?
          = some (if i ∈ (occurrences [1, 2, 1, 1] 1).take
                      (min (2 : Int) (Count [1, 2, 1, 1] 1)).toNat then 9
                  else [1, 2, 1, 1].get ⟨i, h⟩)) :=
  Replace_spec [1, 2, 1, 1] 1 9 2 (by decide) (by decide) (by decide)

end ReplaceLemmas

/-! ## IntSlice and StringSlice -/

theorem intSliceLoop_ok :
    ∀ (rest : List GoValue) (pre suffix : List Int), suffix.length = rest.length →
      (∀ item ∈ rest, assertInt (box item) ≠ none) →
      intSliceLoop rest pre.length (pre ++ suffix)
        = .ok (pre ++ rest.filterMap (fun item => assertInt (box item))) := by
  intro rest
  induction rest with
  | nil =>
    intro pre suffix hlen _
    have : suffix = [] := List.length_eq_zero.mp hlen
    subst this
    rfl
  | cons item rest ih =>
    intro pre suffix hlen hall
    cases suffix with
    | nil => simp at hlen
    | cons s0 suffix =>
      have hitem := hall item (by simp)
      obtain ⟨v, hv⟩ := Option.ne_none_iff_exists'.mp hitem
      simp only [intSliceLoop, hv, List.filterMap_cons]
      rw [List.set_append_right _ _ (Nat.le_refl _)]
      simp only [Nat.sub_self, List.set_cons_zero]
      have h := ih (pre ++ [v]) suffix (by simpa using hlen)
        (fun it hit => hall it (by simp [hit]))
      simp only [List.length_append, List.length_singleton, List.append_assoc,
        List.singleton_append] at h
      exact h

theorem intSliceLoop_error :
    ∀ (rest : List GoValue) (i : Nat) (result : List Int),
      (∃ item ∈ rest, assertInt (box item) = none) →
      intSliceLoop rest i result = .error "invalid element type" := by
  intro rest
  induction rest with
  | nil => intro i result h; simp at h
  | cons item rest ih =>
    intro i result h
    cases hv : assertInt (box item) with
    | none => simp only [intSliceLoop, hv]
    | some v =>
      simp only [intSliceLoop, hv]
      apply ih
      obtain ⟨it, hit, hnone⟩ := h
      rcases List.mem_cons.mp hit with h1 | h1
      · subst h1
        rw [hv] at hnone
        cases hnone
      · exact ⟨it, h1, hnone⟩

theorem stringSliceLoop_ok :
    ∀ (rest : List GoValue) (pre suffix : List String), suffix.length = rest.length →
      (∀ item ∈ rest, assertString (box item) ≠ none) →
      stringSliceLoop rest pre.length (pre ++ suffix)
        = .ok (pre ++ rest.filterMap (fun item => assertString (box item))) := by
  intro rest
  induction rest with
  | nil =>
    intro pre suffix hlen _
    have : suffix = [] := List.length_eq_zero.mp hlen
    subst this
    rfl
  | cons item rest ih =>
    intro pre suffix hlen hall
    cases suffix with
    | nil => simp at hlen
    | cons s0 suffix =>
      have hitem := hall item (by simp)
      obtain ⟨v, hv⟩ := Option.ne_none_iff_exists'.mp hitem
      simp only [stringSliceLoop, hv, List.filterMap_cons]
      rw [List.set_append_right _ _ (Nat.le_refl _)]
      simp only [Nat.sub_self, List.set_cons_zero]
      have h := ih (pre ++ [v]) suffix (by simpa using hlen)
        (fun it hit => hall it (by simp [hit]))
      simp only [List.length_append, List.length_singleton, List.append_assoc,
        List.singleton_append] at h
      exact h

theorem stringSliceLoop_error :
    ∀ (rest : List GoValue) (i : Nat) (result : List String),
      (∃ item ∈ rest, assertString (box item) = none) →
      stringSliceLoop rest i result = .error "invalid element type" := by
  intro rest
  induction rest with
  | nil => intro i result h; simp at h
  | cons item rest ih =>
    intro i result h
    cases hv : assertString (box item) with
    | none => simp only [stringSliceLoop, hv]
    | some v =>
      simp only [stringSliceLoop, hv]
      apply ih
      obtain ⟨it, hit, hnone⟩ := h
      rcases List.mem_cons.mp hit with h1 | h1
      · subst h1
        rw [hv] at hnone
        cases hnone
      · exact ⟨it, h1, hnone⟩

theorem assertInt_box (v : Int) (item : GoValue) (h : assertInt (box item) = some v) :
    box item = .iface (.int v) := by
  cases item with
  | iface d => cases d <;> simp_all [box, assertInt]
  | _ => simp_all [box, assertInt]

theorem assertString_box (v : String) (item : GoValue) (h : assertString (box item) = some v) :
    box item = .iface (.str v) := by
  cases item with
  | iface d => cases d <;> simp_all [box, assertString]
  | _ => simp_all [box, assertString]

theorem assertInt_eq_none (a : GoValue) :
    assertInt a = none ↔ ¬ ∃ v, a = GoValue.iface (.int v) := by
  constructor
  · rintro h ⟨v, rfl⟩
    simp [assertInt] at h
  · intro h
    cases hv : assertInt a with
    | none => rfl
    | some v =>
      exfalso
      apply h
      cases a with
      | iface d => cases d <;> simp_all [assertInt]
      | _ => simp_all [assertInt]

theorem assertString_eq_none (a : GoValue) :
    assertString a = none ↔ ¬ ∃ v, a = GoValue.iface (.str v) := by
  constructor
  · rintro h ⟨v, rfl⟩
    simp [assertString] at h
  · intro h
    cases hv : assertString a with
    | none => rfl
    | some v =>
      exfalso
      apply h
      cases a with
      | iface d => cases d <;> simp_all [assertString]
      | _ => simp_all [assertString]

theorem map_box_of_assertInt :
    ∀ items : List GoValue, (∀ item ∈ items, assertInt (box item) ≠ none) →
      (items.filterMap (fun item => assertInt (box item))).map (fun v => GoValue.iface (.int v))
        = items.map box := by
  intro items
  induction items with
  | nil => intro _; rfl
  | cons item rest ih =>
    intro hall
    obtain ⟨v, hv⟩ := Option.ne_none_iff_exists'.mp (hall item (by simp))
    simp only [List.filterMap_cons, hv, List.map_cons]
    rw [ih (fun it hit => hall it (by simp [hit])), assertInt_box v item hv]

theorem map_box_of_assertString :
    ∀ items : List GoValue, (∀ item ∈ items, assertString (box item) ≠ none) →
      (items.filterMap (fun item => assertString (box item))).map
          (fun v => GoValue.iface (.str v))
        = items.map box := by
  intro items
  induction items with
  | nil => intro _; rfl
  | cons item rest ih =>
    intro hall
    obtain ⟨v, hv⟩ := Option.ne_none_iff_exists'.mp (hall item (by simp))
    simp only [List.filterMap_cons, hv, List.map_cons]
    rw [ih (fun it hit => hall it (by simp [hit])), assertString_box v item hv]

theorem IntSlice_of_sliceValue (x : GoValue) (elem : GoType) (items : List GoValue)
    (hx : sliceValue x = .ok (elem, items)) :
    IntSlice x = intSliceLoop items 0 (List.replicate items.length 0) := by
  unfold IntSlice
  rw [hx]

theorem StringSlice_of_sliceValue (x : GoValue) (elem : GoType) (items : List GoValue)
    (hx : sliceValue x = .ok (elem, items)) :
    StringSlice x = stringSliceLoop items 0 (List.replicate items.length "") := by
  unfold StringSlice
  rw [hx]

/-- Claim C10: for a type-erased sequence `x`, `IntSlice x` (resp. `StringSlice x`) ends in
the panic "invalid element type" if and only if some element of `x` is not an `int` (resp.
not a `string`); otherwise it returns a sequence of the length of `x` whose `i`-th element
is the `i`-th element of `x`. -/
theorem IntSlice_StringSlice_spec (x : GoValue) (elem : GoType) (items : List GoValue)
    (hx : sliceValue x = .ok (elem, items)) :
    ((IntSlice x = .error "invalid element type"
        ↔ ∃ item ∈ items, ¬ ∃ v, box item = GoValue.iface (.int v))
      ∧ ((¬ ∃ item ∈ items, ¬ ∃ v, box item = GoValue.iface (.int v)) →
          ∃ r, IntSlice x = .ok r ∧ r.length = items.length
            ∧ r.map (fun v => GoValue.iface (.int v)) = items.map box))
    ∧ ((StringSlice x = .error "invalid element type"
        ↔ ∃ item ∈ items, ¬ ∃ v, box item = GoValue.iface (.str v))
      ∧ ((¬ ∃ item ∈ items, ¬ ∃ v, box item = GoValue.iface (.str v)) →
          ∃ r, StringSlice x = .ok r ∧ r.length = items.length
            ∧ r.map (fun v => GoValue.iface (.str v)) = items.map box)) := by
  have hI : (¬ ∃ item ∈ items, ¬ ∃ v, box item = GoValue.iface (.int v)) →
      ∃ r, IntSlice x = .ok r ∧ r.length = items.length
        ∧ r.map (fun v => GoValue.iface (.int v)) = items.map box := by
    intro hno
    have hall : ∀ item ∈ items, assertInt (box item) ≠ none := by
      intro item hmem hnone
      exact hno ⟨item, hmem, (assertInt_eq_none _).mp hnone⟩
    have h := intSliceLoop_ok items [] (List.replicate items.length 0) (by simp) hall
    simp only [List.length_nil, List.nil_append] at h
    refine ⟨_, by rw [IntSlice_of_sliceValue x elem items hx]; exact h, ?_,
      map_box_of_assertInt items hall⟩
    have hl := congrArg List.length (map_box_of_assertInt items hall)
    simpa using hl
  have hS : (¬ ∃ item ∈ items, ¬ ∃ v, box item = GoValue.iface (.str v)) →
      ∃ r, StringSlice x = .ok r ∧ r.length = items.length
        ∧ r.map (fun v => GoValue.iface (.str v)) = items.map box := by
    intro hno
    have hall : ∀ item ∈ items, assertString (box item) ≠ none := by
      intro item hmem hnone
      exact hno ⟨item, hmem, (assertString_eq_none _).mp hnone⟩
    have h := stringSliceLoop_ok items [] (List.replicate items.length "") (by simp) hall
    simp only [List.length_nil, List.nil_append] at h
    refine ⟨_, by rw [StringSlice_of_sliceValue x elem items hx]; exact h, ?_,
      map_box_of_assertString items hall⟩
    have hl := congrArg List.length (map_box_of_assertString items hall)
    simpa using hl
  refine ⟨⟨⟨?_, ?_⟩, hI⟩, ⟨⟨?_, ?_⟩, hS⟩⟩
  · intro herr
    by_contra hno
    obtain ⟨r, hr, _⟩ := hI hno
    rw [hr] at herr
    cases herr
  · rintro ⟨item, hmem, hbad⟩
    rw [IntSlice_of_sliceValue x elem items hx]
    exact intSliceLoop_error items _ _ ⟨item, hmem, (assertInt_eq_none _).mpr hbad⟩
  · intro herr
    by_contra hno
    obtain ⟨r, hr, _⟩ := hS hno
    rw [hr] at herr
    cases herr
  · rintro ⟨item, hmem, hbad⟩
    rw [StringSlice_of_sliceValue x elem items hx]
    exact stringSliceLoop_error items _ _ ⟨item, hmem, (assertString_eq_none _).mpr hbad⟩

theorem IntSlice_StringSlice_spec_witness :
    IntSlice (.slice .iface [.iface (.int 1), .iface (.str "a")])
        = .error "invalid element type"
      ↔ ∃ item ∈ [GoValue.iface (.int 1), GoValue.iface (.str "a")],
          ¬ ∃ v, box item = GoValue.iface (.int v) :=
  (IntSlice_StringSlice_spec (.slice .iface [.iface (.int 1), .iface (.str "a")]) .iface
    [.iface (.int 1), .iface (.str "a")] rfl).1.1

/-! ## FlattenDeep -/

theorem reflectAppend_ok (st : GoType) (result r : List GoValue) (v : GoValue)
    (h : reflectAppend st result (some v) = .ok r) :
    ∃ w, r = result ++ [w] ∧ w.typeOf = st := by
  unfold reflectAppend at h
  simp only at h
  split at h
  · rename_i ht
    injection h with h
    exact ⟨v, h.symm, ht⟩
  · split at h
    · rename_i hi
      injection h with h
      exact ⟨.iface v, h.symm, by rw [hi]; rfl⟩
    · cases h

theorem reflectAppend_of_typeOf (st : GoType) (result : List GoValue) (v : GoValue)
    (h : v.typeOf = st) : reflectAppend st result (some v) = .ok (result ++ [v]) := by
  unfold reflectAppend
  simp only
  rw [if_pos h]

/-- Whatever `flattenRecursive` returns extends `result` by values of the type `st`. -/
theorem flatten_result_typed (st : GoType) :
    (∀ (value : GoValue) (result : List GoValue), ∀ r,
        flattenRecursive st value result = .ok r →
        ∃ new, r = result ++ new ∧ ∀ w ∈ new, w.typeOf = st)
    ∧ (∀ (elem : GoType) (items result : List GoValue), ∀ r,
        flattenLoop st elem items result = .ok r →
        ∃ new, r = result ++ new ∧ ∀ w ∈ new, w.typeOf = st) := by
  apply flattenRecursive.mutual_induct st
    (fun value result => ∀ r, flattenRecursive st value result = .ok r →
      ∃ new, r = result ++ new ∧ ∀ w ∈ new, w.typeOf = st)
    (fun elem items result => ∀ r, flattenLoop st elem items result = .ok r →
      ∃ new, r = result ++ new ∧ ∀ w ∈ new, w.typeOf = st)
  · intro result elem items ih r h
    rw [flattenRecursive] at h
    exact ih r h
  · intro t result hns r h
    exfalso
    cases t with
    | slice e its => exact hns e its rfl
    | _ => simp [flattenRecursive] at h
  · intro elem result r h
    rw [flattenLoop] at h
    injection h with h
    exact ⟨[], by simp [h], by simp⟩
  · intro elem result item rest hk r1 hr1 ih1 ih2 r h
    rw [flattenLoop, if_pos hk, hr1] at h
    obtain ⟨new1, rfl, hnew1⟩ := ih1 r1 hr1
    obtain ⟨new2, rfl, hnew2⟩ := ih2 r h
    refine ⟨new1 ++ new2, by simp, ?_⟩
    intro w hw
    rcases List.mem_append.mp hw with hw | hw
    · exact hnew1 w hw
    · exact hnew2 w hw
  · intro elem result item rest hk err herr _ r h
    rw [flattenLoop, if_pos hk, herr] at h
    cases h
  · intro elem result item rest hk r1 hr1 ih2 r h
    rw [flattenLoop, if_neg hk, hr1] at h
    obtain ⟨w, rfl, hw⟩ := reflectAppend_ok st result r1 item hr1
    obtain ⟨new2, rfl, hnew2⟩ := ih2 r h
    refine ⟨w :: new2, by simp, ?_⟩
    intro w2 hw2
    rcases List.mem_cons.mp hw2 with hw2 | hw2
    · rw [hw2]; exact hw
    · exact hnew2 w2 hw2
  · intro elem result item rest hk err herr r h
    rw [flattenLoop, if_neg hk, herr] at h
    cases h

theorem sliceElemType_kind (t : GoType) : (sliceElemType t).kind ≠ .slice := by
  induction t with
  | slice e ih => simpa [sliceElemType] using ih
  | _ => simp [sliceElemType, GoType.kind]

theorem sliceElemType_of_not_slice (t : GoType) (h : t.kind ≠ .slice) : sliceElemType t = t := by
  cases t with
  | slice e => simp [GoType.kind] at h
  | _ => rfl

/-- On a flat sequence whose elements have the non-slice type `st`, the loop of
`flattenRecursive` appends the elements one by one. -/
theorem flattenLoop_flat (st : GoType) (hst : st.kind ≠ .slice) :
    ∀ (items result : List GoValue), (∀ w ∈ items, w.typeOf = st) →
      flattenLoop st st items result = .ok (result ++ items) := by
  intro items
  induction items with
  | nil => intro result _; simp [flattenLoop]
  | cons item rest ih =>
    intro result hall
    rw [flattenLoop, if_neg hst, reflectAppend_of_typeOf st result item (hall item (by simp))]
    simp only
    rw [ih (result ++ [item]) (fun w hw => hall w (by simp [hw]))]
    simp

theorem FlattenDeep_ok_inv (x r : GoValue) (h : FlattenDeep x = .ok r) :
    ∃ st res, r = .iface (.slice st res) ∧ st.kind ≠ .slice ∧ ∀ w ∈ res, w.typeOf = st := by
  unfold FlattenDeep at h
  split at h
  · cases h
  · rename_i elem items hsv
    simp only at h
    split at h
    · rename_i res hres
      injection h with h
      obtain ⟨new, hnew, htyped⟩ := (flatten_result_typed _).1 _ _ _ hres
      simp only [List.nil_append] at hnew
      subst hnew
      exact ⟨_, res, by rw [← h]; rfl, sliceElemType_kind _, htyped⟩
    · cases h

theorem FlattenDeep_of_flat (st : GoType) (res : List GoValue) (hst : st.kind ≠ .slice)
    (hall : ∀ w ∈ res, w.typeOf = st) :
    FlattenDeep (.iface (.slice st res)) = .ok (.iface (.slice st res)) := by
  have hse : sliceElemType (.slice st) = st := by
    rw [sliceElemType, sliceElemType_of_not_slice st hst]
  have hloop := flattenLoop_flat st hst res [] hall
  simp only [List.nil_append] at hloop
  simp only [FlattenDeep, sliceValue, valueOf, hse, flattenRecursive, hloop, box]

/-- A second application of `FlattenDeep` changes nothing. -/
theorem FlattenDeep_twice (x r : GoValue) (h : FlattenDeep x = .ok r) :
    FlattenDeep r = .ok r := by
  obtain ⟨st, res, rfl, hst, hall⟩ := FlattenDeep_ok_inv x r h
  exact FlattenDeep_of_flat st res hst hall

theorem wellTypedItems_cons (elem : GoType) (item : GoValue) (rest : List GoValue)
    (h : wellTypedItems elem (item :: rest) = true) :
    item.typeOf = elem ∧ item.wellTyped = true ∧ wellTypedItems elem rest = true := by
  rw [wellTypedItems] at h
  simp only [Bool.and_eq_true, decide_eq_true_eq] at h
  exact ⟨h.1.1, h.1.2, h.2⟩

/-- On a well-typed nested sequence whose innermost element type is `st`,
`flattenRecursive` returns. -/
theorem flatten_total (st : GoType) :
    (∀ (value : GoValue) (result : List GoValue),
        value.wellTyped = true → value.typeOf.kind = .slice →
        sliceElemType value.typeOf = st →
        ∃ r, flattenRecursive st value result = .ok r)
    ∧ (∀ (elem : GoType) (items result : List GoValue),
        wellTypedItems elem items = true → sliceElemType elem = st →
        ∃ r, flattenLoop st elem items result = .ok r) := by
  apply flattenRecursive.mutual_induct st
    (fun value result => value.wellTyped = true → value.typeOf.kind = .slice →
      sliceElemType value.typeOf = st → ∃ r, flattenRecursive st value result = .ok r)
    (fun elem items result => wellTypedItems elem items = true → sliceElemType elem = st →
      ∃ r, flattenLoop st elem items result = .ok r)
  · intro result elem items ih hwt _ hst
    rw [GoValue.wellTyped] at hwt
    rw [flattenRecursive]
    exact ih hwt (by simpa [GoValue.typeOf, sliceElemType] using hst)
  · intro t result hns _ hk _
    exfalso
    cases t with
    | slice e its => exact hns e its rfl
    | _ => simp [GoValue.typeOf, GoType.kind] at hk
  · intro elem result _ _
    exact ⟨result, by rw [flattenLoop]⟩
  · intro elem result item rest hk r1 hr1 _ ih2 hwt hst
    obtain ⟨_, _, hrest⟩ := wellTypedItems_cons elem item rest hwt
    rw [flattenLoop, if_pos hk, hr1]
    exact ih2 hrest hst
  · intro elem result item rest hk err herr ih1 hwt hst
    exfalso
    obtain ⟨hty, hitem, _⟩ := wellTypedItems_cons elem item rest hwt
    obtain ⟨r, hr⟩ := ih1 hitem (by rw [hty]; exact hk) (by rw [hty]; exact hst)
    rw [hr] at herr
    cases herr
  · intro elem result item rest hk r1 hr1 ih2 hwt hst
    obtain ⟨_, _, hrest⟩ := wellTypedItems_cons elem item rest hwt
    rw [flattenLoop, if_neg hk, hr1]
    exact ih2 hrest hst
  · intro elem result item rest hk err herr hwt hst
    exfalso
    obtain ⟨hty, _, _⟩ := wellTypedItems_cons elem item rest hwt
    rw [sliceElemType_of_not_slice elem hk] at hst
    rw [reflectAppend_of_typeOf st result item (by rw [hty, hst])] at herr
    cases herr

theorem FlattenDeep_total (x : GoValue) (elem : GoType) (items : List GoValue)
    (hx : sliceValue x = .ok (elem, items)) (hwt : wellTypedItems elem items = true) :
    ∃ r, FlattenDeep x = .ok r := by
  obtain ⟨res, hres⟩ := (flatten_total (sliceElemType (.slice elem))).1 (.slice elem items) []
    (by rw [GoValue.wellTyped]; exact hwt) rfl rfl
  refine ⟨box (.slice (sliceElemType (.slice elem)) res), ?_⟩
  unfold FlattenDeep
  rw [hx]
  simp only [hres]

/-- Claim C8: for every nested input `x` (a type-erased sequence of well-typed elements),
`FlattenDeep x` returns and `FlattenDeep (FlattenDeep x)` equals `FlattenDeep x`. -/
theorem FlattenDeep_idempotent (x : GoValue) (elem : GoType) (items : List GoValue)
    (hx : sliceValue x = .ok (elem, items)) (hwt : wellTypedItems elem items = true) :
    ∃ r, FlattenDeep x = .ok r ∧ FlattenDeep r = FlattenDeep x := by
  obtain ⟨r, hr⟩ := FlattenDeep_total x elem items hx hwt
  exact ⟨r, hr, by rw [hr]; exact FlattenDeep_twice x r hr⟩

theorem FlattenDeep_idempotent_witness :
    ∃ r, FlattenDeep (.slice (.slice .iface)
            [.slice .iface [.iface (.slice .int [.int 1]), .ifaceNil], .slice .iface []])
          = .ok r
      ∧ FlattenDeep r
          = FlattenDeep (.slice (.slice .iface)
              [.slice .iface [.iface (.slice .int [.int 1]), .ifaceNil], .slice .iface []]) :=
  FlattenDeep_idempotent _ (.slice .iface)
    [.slice .iface [.iface (.slice .int [.int 1]), .ifaceNil], .slice .iface []] rfl (by decide)

theorem leaves_of_concrete (st : GoType) (item : GoValue) (hk : st.kind ≠ .slice)
    (hi : st ≠ .iface) (hty : item.typeOf = st) : leaves item = [item] := by
  cases item with
  | slice e its => rw [← hty] at hk; simp [GoValue.typeOf, GoType.kind] at hk
  | iface d => rw [← hty] at hi; simp [GoValue.typeOf] at hi
  | ifaceNil => rw [← hty] at hi; simp [GoValue.typeOf] at hi
  | _ => rfl

/-- Where no level of the nesting is `any`-typed, `flattenRecursive` appends exactly the
leaves of the specification. -/
theorem flatten_static (st : GoType) (hi : st ≠ .iface) :
    (∀ (value : GoValue) (result : List GoValue),
        value.wellTyped = true → value.typeOf.kind = .slice →
        sliceElemType value.typeOf = st →
        flattenRecursive st value result = .ok (result ++ leaves value))
    ∧ (∀ (elem : GoType) (items result : List GoValue),
        wellTypedItems elem items = true → sliceElemType elem = st →
        flattenLoop st elem items result = .ok (result ++ leavesOfItems items)) := by
  apply flattenRecursive.mutual_induct st
    (fun value result => value.wellTyped = true → value.typeOf.kind = .slice →
      sliceElemType value.typeOf = st →
      flattenRecursive st value result = .ok (result ++ leaves value))
    (fun elem items result => wellTypedItems elem items = true → sliceElemType elem = st →
      flattenLoop st elem items result = .ok (result ++ leavesOfItems items))
  · intro result elem items ih hwt _ hst
    rw [GoValue.wellTyped] at hwt
    rw [flattenRecursive, leaves]
    exact ih hwt (by simpa [GoValue.typeOf, sliceElemType] using hst)
  · intro t result hns _ hk _
    exfalso
    cases t with
    | slice e its => exact hns e its rfl
    | _ => simp [GoValue.typeOf, GoType.kind] at hk
  · intro elem result _ _
    rw [flattenLoop, leavesOfItems]
    simp
  · intro elem result item rest hk r1 hr1 ih1 ih2 hwt hst
    obtain ⟨hty, hitem, hrest⟩ := wellTypedItems_cons elem item rest hwt
    have h1 := ih1 hitem (by rw [hty]; exact hk) (by rw [hty]; exact hst)
    rw [hr1] at h1
    injection h1 with h1
    rw [flattenLoop, if_pos hk, hr1]
    simp only
    rw [ih2 hrest hst, h1, leavesOfItems]
    simp
  · intro elem result item rest hk err herr ih1 hwt hst
    exfalso
    obtain ⟨hty, hitem, _⟩ := wellTypedItems_cons elem item rest hwt
    have h1 := ih1 hitem (by rw [hty]; exact hk) (by rw [hty]; exact hst)
    rw [h1] at herr
    cases herr
  · intro elem result item rest hk r1 hr1 ih2 hwt hst
    obtain ⟨hty, _, hrest⟩ := wellTypedItems_cons elem item rest hwt
    rw [sliceElemType_of_not_slice elem hk] at hst
    have hty2 : item.typeOf = st := by rw [hty, hst]
    rw [reflectAppend_of_typeOf st result item hty2] at hr1
    injection hr1 with hr1
    rw [flattenLoop, if_neg hk, reflectAppend_of_typeOf st result item hty2]
    simp only
    rw [hr1, ih2 hrest (by rw [sliceElemType_of_not_slice elem hk, hst]), leavesOfItems,
      leaves_of_concrete st item (by rw [← hst]; exact hk) hi hty2, ← hr1]
    simp
  · intro elem result item rest hk err herr hwt hst
    exfalso
    obtain ⟨hty, _, _⟩ := wellTypedItems_cons elem item rest hwt
    rw [sliceElemType_of_not_slice elem hk] at hst
    rw [reflectAppend_of_typeOf st result item (by rw [hty, hst])] at herr
    cases herr

theorem not_isSequence_of_typeOf (st : GoType) (w : GoValue) (hk : st.kind ≠ .slice)
    (hi : st ≠ .iface) (hty : w.typeOf = st) : isSequence w = false := by
  cases w with
  | slice e its => rw [← hty] at hk; simp [GoValue.typeOf, GoType.kind] at hk
  | iface d => rw [← hty] at hi; simp [GoValue.typeOf] at hi
  | ifaceNil => rw [← hty] at hi; simp [GoValue.typeOf] at hi
  | _ => simp [isSequence, box, valueOf, kindOf, GoValue.typeOf, GoType.kind]

/-- The part of claim C7 that the code meets: on a nested sequence none of whose levels
is `any`-typed (innermost element type not an interface), whatever the depth,
`FlattenDeep` returns the leaves in depth-first order and none of them is a sequence. -/
theorem FlattenDeep_static_leaves (x : GoValue) (elem : GoType) (items : List GoValue)
    (hx : sliceValue x = .ok (elem, items)) (hwt : wellTypedItems elem items = true)
    (hi : sliceElemType elem ≠ .iface) :
    FlattenDeep x = .ok (.iface (.slice (sliceElemType elem) (leaves (.slice elem items))))
    ∧ ∀ w ∈ leaves (.slice elem items), isSequence w = false := by
  have hflat := (flatten_static (sliceElemType elem) hi).1 (.slice elem items) []
    (by rw [GoValue.wellTyped]; exact hwt) rfl rfl
  simp only [List.nil_append] at hflat
  constructor
  · unfold FlattenDeep
    rw [hx]
    simp only [sliceElemType, hflat, box]
  · intro w hw
    obtain ⟨new, hnew, htyped⟩ := (flatten_result_typed (sliceElemType elem)).1 _ _ _ hflat
    simp only [List.nil_append] at hnew
    rw [hnew] at hw
    exact not_isSequence_of_typeOf _ w (sliceElemType_kind elem) hi (htyped w hw)

/-- Claim C7 at `[]any{[]int{1, 2}, 3}`: `FlattenDeep` returns the two elements as they
are, the first of them a sequence, where the leaves are 1, 2, 3. The element of an
`any`-typed sequence has kind `Interface`, so the test `kind == reflect.Slice` never
descends into it; `Flatten` unwraps the same input before testing the kind. -/
theorem FlattenDeep_any_held_not_flattened :
    FlattenDeep (.slice .iface [.iface (.slice .int [.int 1, .int 2]), .iface (.int 3)])
      = .ok (.iface (.slice .iface [.iface (.slice .int [.int 1, .int 2]), .iface (.int 3)]))
    ∧ (leaves (.slice .iface [.iface (.slice .int [.int 1, .int 2]), .iface (.int 3)])).map box
      = [.iface (.int 1), .iface (.int 2), .iface (.int 3)]
    ∧ isSequence (.iface (.slice .int [.int 1, .int 2])) = true
    ∧ Flatten (.slice .iface [.iface (.slice .int [.int 1, .int 2]), .iface (.int 3)])
      = .ok (.iface (.slice .iface [.iface (.int 1), .iface (.int 2), .iface (.int 3)])) :=
  ⟨rfl, rfl, by decide, rfl⟩

/-! ## Flatten -/

theorem wellTypedItems_mem (elem : GoType) :
    ∀ (items : List GoValue), wellTypedItems elem items = true →
      ∀ w ∈ items, w.typeOf = elem ∧ w.wellTyped = true := by
  intro items
  induction items with
  | nil => intro _ w hw; simp at hw
  | cons item rest ih =>
    intro h w hw
    obtain ⟨h1, h2, h3⟩ := wellTypedItems_cons elem item rest h
    rcases List.mem_cons.mp hw with hw | hw
    · subst hw
      exact ⟨h1, h2⟩
    · exact ih h3 w hw

theorem flattenInner_ok (elem : GoType) :
    ∀ (its result : List GoValue), (∀ w ∈ its, w.typeOf = elem ∨ elem = .iface) →
      flattenInner elem its result = .ok (result ++ its.map (asElem elem)) := by
  intro its
  induction its with
  | nil => intro result _; simp [flattenInner]
  | cons y ys ih =>
    intro result hall
    have hstep : reflectAppend elem result (some y) = .ok (result ++ [asElem elem y]) := by
      unfold reflectAppend asElem
      simp only
      by_cases hy : y.typeOf = elem
      · rw [if_pos hy, if_pos hy]
      · rw [if_neg hy, if_neg hy]
        rcases hall y (by simp) with h | h
        · exact absurd h hy
        · rw [if_pos h]
    rw [flattenInner, hstep]
    simp only
    rw [ih _ (fun w hw => hall w (by simp [hw]))]
    simp

/-- The outer loop of `Flatten` on well-typed elements none of which is the nil
interface: the result receives, converted to its element type, the elements of the
specification. -/
theorem flattenOuter_ok (elem re : GoType) (hre : (elem = .iface ∧ re = .iface) ∨ elem = .slice re) :
    ∀ (items result : List GoValue), wellTypedItems elem items = true →
      (∀ w ∈ items, w ≠ .ifaceNil) →
      flattenOuter re items result = .ok (result ++ (unwrapOnce items).map (asElem re)) := by
  intro items
  induction items with
  | nil => intro result _ _; simp [flattenOuter, unwrapOnce]
  | cons x rest ih =>
    intro result hwt hnn
    obtain ⟨hty, hx, hrest⟩ := wellTypedItems_cons elem x rest hwt
    have hih := fun r => ih r hrest (fun w hw => hnn w (by simp [hw]))
    have hxn : x ≠ .ifaceNil := hnn x (by simp)
    rcases hre with ⟨he, hr⟩ | he
    · subst he
      subst hr
      cases x with
      | ifaceNil => exact absurd rfl hxn
      | iface d =>
        rw [GoValue.wellTyped] at hx
        simp only [Bool.and_eq_true, decide_eq_true_eq] at hx
        cases d with
        | slice e its =>
          simp only [flattenOuter, box, valueOf, unwrapOnce]
          rw [flattenInner_ok .iface its result (fun w _ => Or.inr rfl)]
          simp only
          rw [hih]
          simp
        | iface d2 => simp [GoValue.typeOf, GoType.kind] at hx
        | ifaceNil => simp [GoValue.typeOf, GoType.kind] at hx
        | int n =>
          simp only [flattenOuter, box, valueOf, unwrapOnce, reflectAppend, GoValue.typeOf,
            reduceCtorEq, if_false, if_true]
          rw [hih]
          simp [asElem, GoValue.typeOf]
        | str n =>
          simp only [flattenOuter, box, valueOf, unwrapOnce, reflectAppend, GoValue.typeOf,
            reduceCtorEq, if_false, if_true]
          rw [hih]
          simp [asElem, GoValue.typeOf]
        | other n k =>
          simp only [flattenOuter, box, valueOf, unwrapOnce, reflectAppend, GoValue.typeOf,
            reduceCtorEq, if_false, if_true]
          rw [hih]
          simp [asElem, GoValue.typeOf]
      | _ => simp [GoValue.typeOf] at hty
    · subst he
      cases x with
      | slice e its =>
        have he : e = re := by simpa [GoValue.typeOf] using hty
        subst he
        rw [GoValue.wellTyped] at hx
        have hits := wellTypedItems_mem e its hx
        simp only [flattenOuter, box, valueOf, unwrapOnce]
        rw [flattenInner_ok e its result (fun w hw => Or.inl (hits w hw).1)]
        simp only
        rw [hih]
        simp
      | _ => simp [GoValue.typeOf] at hty

/-- The part of claim C9 that the code meets: for a type-erased sequence whose element
kind is "sequence" or "any" and none of whose elements is the nil interface, `Flatten`
returns the in-order concatenation of the elements of the elements that are sequences and
of the other elements themselves, one level only. -/
theorem Flatten_one_level (x : GoValue) (elem re : GoType) (items : List GoValue)
    (hx : sliceValue x = .ok (elem, items)) (hwt : wellTypedItems elem items = true)
    (hre : (elem = .iface ∧ re = .iface) ∨ elem = .slice re)
    (hnn : ∀ w ∈ items, w ≠ .ifaceNil) :
    Flatten x = .ok (.iface (.slice re ((unwrapOnce items).map (asElem re)))) := by
  have h := flattenOuter_ok elem re hre items [] hwt hnn
  simp only [List.nil_append] at h
  unfold Flatten
  rw [hx]
  rcases hre with ⟨he, hr⟩ | he
  · subst he
    subst hr
    simp only [h, box]
  · subst he
    simp only [h, box]

/-- Claim C9 at `[]any{nil}`: the element is not a sequence and the claim has `Flatten`
return it; `reflect.ValueOf` of the nil interface is the zero `Value`, and appending it
panics. `flattenRecursive` appends the same element, taken with `Index`, without
failing. -/
theorem Flatten_nil_element_panics :
    Flatten (.slice .iface [.ifaceNil])
      = .error "reflect: call of reflect.Value.Set on zero Value"
    ∧ isSequence .ifaceNil = false
    ∧ FlattenDeep (.slice .iface [.ifaceNil]) = .ok (.iface (.slice .iface [.ifaceNil])) :=
  ⟨rfl, by decide, rfl⟩

/-! ## Filter -/

theorem filterLoop_eq (p : Int → T → Bool) :
    ∀ (rest : List T) (n : Nat) (result : List T),
      filterLoop p rest n result
        = result ++ ((List.enumFrom n rest).filter (fun ix => p (ix.1 : Int) ix.2)).map Prod.snd := by
  intro rest
  induction rest with
  | nil => intro n result; simp [filterLoop]
  | cons v rest ih =>
    intro n result
    rw [filterLoop, ih, List.enumFrom_cons, List.filter_cons]
    by_cases hp : p (n : Int) v = true
    · simp [hp]
    · simp [hp]

theorem Filter_eq_selectIdx (s : List T) (p : Int → T → Bool) : Filter s p = selectIdx p s := by
  unfold Filter selectIdx
  rw [filterLoop_eq]
  simp [List.enum]

theorem mem_selectIdx (q : Int → T → Bool) (s : List T) (y : T) :
    y ∈ selectIdx q s ↔ ∃ i : Nat, s[i]? = some y ∧ q (i : Int) y = true := by
  unfold selectIdx
  simp only [List.mem_map, List.mem_filter]
  constructor
  · rintro ⟨⟨i, x⟩, ⟨hmem, hq⟩, rfl⟩
    exact ⟨i, List.mk_mem_enum_iff_getElem?.mp hmem, hq⟩
  · rintro ⟨i, hget, hq⟩
    exact ⟨(i, y), ⟨List.mk_mem_enum_iff_getElem?.mpr hget, hq⟩, rfl⟩

theorem selectIdx_sublist (q : Int → T → Bool) (s : List T) : (selectIdx q s).Sublist s := by
  unfold selectIdx
  have h := (List.filter_sublist (p := fun ix : Nat × T => q (ix.1 : Int) ix.2) s.enum).map Prod.snd
  rwa [List.enum_map_snd] at h

/-- Claim C19: `Filter s p` is a subsequence of `s` in the original order, it consists of
exactly the `s[i]` with `p i s[i]` true (so each of its elements satisfies `p` at its
original index), and it is at most as long as `s`. -/
theorem Filter_spec (s : List T) (p : Int → T → Bool) :
    (Filter s p).Sublist s
    ∧ Filter s p = selectIdx p s
    ∧ (∀ y, y ∈ Filter s p ↔ ∃ i : Nat, s[i]? = some y ∧ p (i : Int) y = true)
    ∧ (Filter s p).length ≤ s.length := by
  rw [Filter_eq_selectIdx]
  exact ⟨selectIdx_sublist p s, rfl, mem_selectIdx p s, (selectIdx_sublist p s).length_le⟩

/-! ## GroupBy -/

theorem groupByLoop_eq (p : Int → T → Bool) :
    ∀ (rest : List T) (n : Nat) (groups : List T × List T),
      groupByLoop p rest n groups
        = (groups.1
            ++ ((List.enumFrom n rest).filter (fun ix => p (ix.1 : Int) ix.2)).map Prod.snd,
           groups.2
            ++ ((List.enumFrom n rest).filter (fun ix => !p (ix.1 : Int) ix.2)).map Prod.snd) := by
  intro rest
  induction rest with
  | nil => intro n groups; simp [groupByLoop]
  | cons v rest ih =>
    intro n groups
    rw [groupByLoop, ih, List.enumFrom_cons, List.filter_cons, List.filter_cons]
    by_cases hp : p (n : Int) v = true
    · simp [hp]
    · simp [hp]

theorem GroupBy_eq_selectIdx (s : List T) (p : Int → T → Bool) :
    GroupBy s p = (selectIdx p s, selectIdx (fun i x => !p i x) s) := by
  unfold GroupBy
  split
  · rename_i h
    have : s = [] := List.length_eq_zero.mp h
    subst this
    rfl
  · rw [groupByLoop_eq]
    simp [selectIdx, List.enum]

theorem selectIdx_perm (p : Int → T → Bool) (s : List T) :
    (selectIdx p s ++ selectIdx (fun i x => !p i x) s).Perm s := by
  unfold selectIdx
  rw [← List.map_append]
  have h := (List.filter_append_perm (fun ix : Nat × T => p (ix.1 : Int) ix.2) s.enum).map Prod.snd
  rwa [List.enum_map_snd] at h

theorem reassemble_enumFrom (p : Int → T → Bool) :
    ∀ (s : List T) (n : Nat),
      reassemble ((List.enumFrom n s).map (fun ix => p (ix.1 : Int) ix.2))
        (((List.enumFrom n s).filter (fun ix => p (ix.1 : Int) ix.2)).map Prod.snd)
        (((List.enumFrom n s).filter (fun ix => !p (ix.1 : Int) ix.2)).map Prod.snd) = s := by
  intro s
  induction s with
  | nil => intro n; rfl
  | cons v rest ih =>
    intro n
    rw [List.enumFrom_cons, List.filter_cons, List.filter_cons, List.map_cons]
    by_cases hp : p (n : Int) v = true
    · simp only [hp, if_true, Bool.not_true, List.map_cons, reassemble]
      simp only [Bool.false_eq_true, if_false]
      rw [ih]
    · have hp2 : p (n : Int) v = false := by simpa using hp
      simp only [hp2, Bool.false_eq_true, if_false, Bool.not_false, if_true, List.map_cons,
        reassemble]
      rw [ih]

/-- Claim C12: `GroupBy s p` is the pair `(a, b)` of the subsequence of the `s[i]` with
`p i s[i]` true and of those with it false, each in the original order; the lengths add up
to that of `s`, the multiset union of `a` and `b` is the multiset of `s`, putting the
elements back at their original indices gives `s`, and both are empty for empty `s`. -/
theorem GroupBy_spec (s : List T) (p : Int → T → Bool) :
    GroupBy s p = (selectIdx p s, selectIdx (fun i x => !p i x) s)
    ∧ (GroupBy s p).1.Sublist s ∧ (GroupBy s p).2.Sublist s
    ∧ (GroupBy s p).1.length + (GroupBy s p).2.length = s.length
    ∧ ((GroupBy s p).1 : Multiset T) + ((GroupBy s p).2 : Multiset T) = (s : Multiset T)
    ∧ reassemble (projectIdx p s) (GroupBy s p).1 (GroupBy s p).2 = s
    ∧ GroupBy ([] : List T) p = ([], []) := by
  rw [GroupBy_eq_selectIdx]
  refine ⟨rfl, ?_, ?_, ?_, ?_, ?_, rfl⟩
  · exact selectIdx_sublist p s
  · exact selectIdx_sublist (fun i x => !p i x) s
  · have h := (selectIdx_perm p s).length_eq
    simpa using h
  · rw [Multiset.coe_add, Multiset.coe_eq_coe]
    exact selectIdx_perm p s
  · exact reassemble_enumFrom p s 0

/-! ## DifferenceBy -/

theorem mapLoop_eq {U : Type v} (f : Int → T → U) :
    ∀ (rest : List T) (pre suffix : List U), suffix.length = rest.length →
      mapLoop f rest pre.length (pre ++ suffix)
        = pre ++ (List.enumFrom pre.length rest).map (fun ix => f (ix.1 : Int) ix.2) := by
  intro rest
  induction rest with
  | nil =>
    intro pre suffix hlen
    have : suffix = [] := List.length_eq_zero.mp hlen
    subst this
    simp [mapLoop]
  | cons item rest ih =>
    intro pre suffix hlen
    cases suffix with
    | nil => simp at hlen
    | cons s0 suffix =>
      rw [mapLoop, List.set_append_right _ _ (Nat.le_refl _)]
      simp only [Nat.sub_self, List.set_cons_zero]
      have h := ih (pre ++ [f (pre.length : Int) item]) suffix (by simpa using hlen)
      simp only [List.length_append, List.length_singleton, List.append_assoc,
        List.singleton_append] at h
      rw [h, List.enumFrom_cons]
      simp

theorem Map_eq_projectIdx {U : Type v} (zero : U) (s : List T) (f : Int → T → U) :
    Map zero s f = projectIdx f s := by
  have h := mapLoop_eq f s [] (List.replicate s.length zero) (by simp)
  simpa [Map, projectIdx, List.enum] using h

theorem mem_projectIdx {U : Type v} (f : Int → T → U) (s : List T) (v : U) :
    v ∈ projectIdx f s ↔ ∃ (j : Nat) (y : T), s[j]? = some y ∧ f (j : Int) y = v := by
  unfold projectIdx
  simp only [List.mem_map]
  constructor
  · rintro ⟨⟨j, y⟩, hmem, rfl⟩
    exact ⟨j, y, List.mk_mem_enum_iff_getElem?.mp hmem, rfl⟩
  · rintro ⟨j, y, hget, rfl⟩
    exact ⟨(j, y), List.mk_mem_enum_iff_getElem?.mpr hget, rfl⟩

theorem index_append_cons (pre rest : List T) (x : T) :
    index (pre ++ x :: rest) (pre.length : Int) = .ok x := by
  unfold index
  rw [if_neg (by omega)]
  have h : (pre ++ x :: rest)[((pre.length : Nat) : Int).toNat]? = some x := by
    rw [Int.toNat_ofNat, List.getElem?_append_right (Nat.le_refl _)]
    simp
  rw [h]

section DifferenceByLemmas

variable [DecidableEq T]

theorem Contain_eq_decide (target : T) : ∀ s : List T, Contain s target = decide (target ∈ s) := by
  intro s
  induction s with
  | nil => simp [Contain]
  | cons item rest ih =>
    rw [Contain, ih]
    by_cases h : item = target
    · simp [h]
    · have h2 : ¬ target = item := fun hc => h hc.symm
      simp [h, h2]

theorem differenceByLoop_eq (f : Int → T → T) (cmp : List T) :
    ∀ (rest pre result : List T),
      differenceByLoop (pre ++ rest) cmp
          ((List.enumFrom pre.length rest).map (fun ix => f (ix.1 : Int) ix.2)) pre.length result
        = .ok (result ++ ((List.enumFrom pre.length rest).filter
            (fun ix => decide (f (ix.1 : Int) ix.2 ∉ cmp))).map Prod.snd) := by
  intro rest
  induction rest with
  | nil => intro pre result; simp [differenceByLoop]
  | cons x rest ih =>
    intro pre result
    have hih := fun r => ih (pre ++ [x]) r
    simp only [List.length_append, List.length_singleton, List.append_assoc,
      List.singleton_append] at hih
    rw [List.enumFrom_cons, List.map_cons, differenceByLoop, Contain_eq_decide,
      index_append_cons, List.filter_cons]
    by_cases hmem : f (pre.length : Int) x ∈ cmp
    · simp only [hmem, decide_True, Bool.not_true, Bool.false_eq_true, if_false, not_true,
        decide_False]
      rw [hih]
    · simp only [hmem, decide_False, Bool.not_false, if_true, not_false_eq_true, decide_True]
      rw [hih]
      simp

/-- Claim C11: `DifferenceBy s excluded f` returns the subsequence of `s`, in the original
order and unprojected, of exactly the `s[i]` whose projected value `f i s[i]` equals none
of the projected values `f j excluded[j]`; on `[1,2,3]`, `[2,3,4]` and `x => x % 2` both
parities occur among the second list's, and nothing is kept. -/
theorem DifferenceBy_spec :
    (∀ (T : Type u) [DecidableEq T] (zero : T) (s excluded : List T) (f : Int → T → T),
      DifferenceBy zero s excluded f
        = .ok (selectIdx (fun i x => decide (f i x ∉ projectIdx f excluded)) s)
      ∧ (∀ v, v ∈ projectIdx f excluded
          ↔ ∃ (j : Nat) (y : T), excluded[j]? = some y ∧ f (j : Int) y = v))
    ∧ DifferenceBy (0 : Int) [1, 2, 3] [2, 3, 4] (fun _ x => Int.tmod x 2) = .ok []
    ∧ DifferenceBy (0 : Int) [1, 3, 5] [2, 4] (fun _ x => Int.tmod x 2) = .ok [1, 3, 5] := by
  refine ⟨?_, rfl, rfl⟩
  intro T _ zero s excluded f
  refine ⟨?_, mem_projectIdx f excluded⟩
  unfold DifferenceBy
  simp only
  rw [Map_eq_projectIdx, Map_eq_projectIdx]
  have h := differenceByLoop_eq f (projectIdx f excluded) s [] []
  simp only [List.length_nil, List.nil_append] at h
  exact h

end DifferenceByLemmas

/-! ## GroupWith -/

theorem groupWithStep_apply {U : Type v} [DecidableEq U] (f : T → U) (m : GoMap U (List T))
    (a : T) (k : U) :
    groupWithStep f m a k = if k = f a then some ((m (f a)).getD [] ++ [a]) else m k := by
  unfold groupWithStep
  by_cases hk : k = f a
  · subst hk
    cases hm : m (f a) with
    | none => simp [GoMap.insert, hm]
    | some l => simp [GoMap.insert, hm]
  · cases hm : m (f a) with
    | none => simp [GoMap.insert, hm, hk]
    | some l => simp [GoMap.insert, hm, hk]

theorem GroupWith_apply {U : Type v} [DecidableEq U] (f : T → U) :
    ∀ (s : List T) (k : U), GroupWith s f k
      = if (s.filter (fun x => decide (f x = k))).isEmpty then none
        else some (s.filter (fun x => decide (f x = k))) := by
  intro s
  induction s using List.reverseRecOn with
  | nil => intro k; rfl
  | append_singleton pre a ih =>
    intro k
    have hstep : GroupWith (pre ++ [a]) f = groupWithStep f (GroupWith pre f) a := by
      unfold GroupWith
      rw [List.foldl_append]
      rfl
    have hget : (GroupWith pre f (f a)).getD [] = pre.filter (fun x => decide (f x = f a)) := by
      rw [ih (f a)]
      cases hfilt : pre.filter (fun x => decide (f x = f a)) with
      | nil => rfl
      | cons y ys => rfl
    rw [hstep, groupWithStep_apply, hget, List.filter_append]
    by_cases hk : k = f a
    · subst hk
      simp
    · have hk2 : ¬ f a = k := fun hc => hk hc.symm
      rw [if_neg hk, ih k]
      simp [hk2]

/-- Claim C13: in the mapping `GroupWith s f` a key `k` is present if and only if
`f x = k` for some element `x` of `s`, and the value at a present key is the non-empty
subsequence of `s`, in the original order, of exactly the elements `x` with `f x = k`;
`GroupWith [1,2,3,4] isEven` maps `true` to `[2,4]` and `false` to `[1,3]`. -/
theorem GroupWith_spec :
    (∀ (T : Type u) (U : Type v) [DecidableEq U] (s : List T) (f : T → U),
      (∀ k, (GroupWith s f k).isSome = true ↔ ∃ x ∈ s, f x = k)
      ∧ (∀ k l, GroupWith s f k = some l →
          l = s.filter (fun x => decide (f x = k)) ∧ l ≠ [] ∧ l.Sublist s))
    ∧ GroupWith [1, 2, 3, 4] (fun x : Int => decide (Int.tmod x 2 = 0)) true = some [2, 4]
    ∧ GroupWith [1, 2, 3, 4] (fun x : Int => decide (Int.tmod x 2 = 0)) false = some [1, 3] := by
  refine ⟨?_, by decide, by decide⟩
  intro T U _ s f
  constructor
  · intro k
    rw [GroupWith_apply]
    cases hfilt : s.filter (fun x => decide (f x = k)) with
    | nil =>
      simp only [List.isEmpty_nil, if_true, Option.isSome_none, Bool.false_eq_true, false_iff]
      rintro ⟨x, hx, hfx⟩
      have hmem : x ∈ s.filter (fun x => decide (f x = k)) :=
        List.mem_filter.mpr ⟨hx, by simpa using hfx⟩
      rw [hfilt] at hmem
      simp at hmem
    | cons y ys =>
      simp only [List.isEmpty_cons, Bool.false_eq_true, if_false, Option.isSome_some, true_iff]
      have hmem : y ∈ s.filter (fun x => decide (f x = k)) := by rw [hfilt]; simp
      have hy := List.mem_filter.mp hmem
      exact ⟨y, hy.1, by simpa using hy.2⟩
  · intro k l h
    rw [GroupWith_apply] at h
    cases hfilt : s.filter (fun x => decide (f x = k)) with
    | nil =>
      rw [hfilt] at h
      simp at h
    | cons y ys =>
      rw [hfilt] at h
      simp only [List.isEmpty_cons, Bool.false_eq_true, if_false] at h
      injection h with h
      subst h
      refine ⟨rfl, by simp, ?_⟩
      rw [← hfilt]
      exact List.filter_sublist s

theorem GroupWith_spec_witness :
    GroupWith [1, 2, 3, 4] (fun x : Int => decide (Int.tmod x 2 = 0)) true = some [2, 4]
      ∧ ([2, 4] = [1, 2, 3, 4].filter
            (fun x => decide ((fun x : Int => decide (Int.tmod x 2 = 0)) x = true))
        ∧ ([2, 4] : List Int) ≠ [] ∧ ([2, 4] : List Int).Sublist [1, 2, 3, 4]) :=
  ⟨by decide,
    (GroupWith_spec.1 Int Bool [1, 2, 3, 4] (fun x : Int => decide (Int.tmod x 2 = 0))).2
      true [2, 4] (by decide)⟩

/-! ## Drop and DropRight -/

/-- Claim C14: if `n >= len s`, `Drop s n` and `DropRight s n` are empty; if `n <= 0`, both
have the contents of `s`; and if `0 < n < len s`, `Drop s n` is `s[n:]` and `DropRight s n`
is `s[0:len s - n]`. -/
theorem Drop_DropRight_spec (s : List T) (n : Int) :
    ((s.length : Int) ≤ n → Drop s n = [] ∧ DropRight s n = [])
    ∧ (n ≤ 0 → Drop s n = s ∧ DropRight s n = s)
    ∧ (0 < n → n < (s.length : Int) →
        Drop s n = s.drop n.toNat ∧ DropRight s n = s.take (s.length - n.toNat)) := by
  refine ⟨?_, ?_, ?_⟩
  · intro h
    simp [Drop, DropRight, h]
  · intro h
    by_cases hs : (s.length : Int) ≤ n
    · have hlen : s.length = 0 := by omega
      have hnil : s = [] := List.length_eq_zero.mp hlen
      subst hnil
      simp [Drop, DropRight]
    · simp [Drop, DropRight, hs, h]
  · intro h0 h1
    have h2 : ¬ (s.length : Int) ≤ n := by omega
    have h3 : ¬ n ≤ 0 := by omega
    have h4 : ((s.length : Int) - n).toNat = s.length - n.toNat := by omega
    simp only [Drop, DropRight, h2, h3, if_false, List.nil_append, h4, and_self]

theorem Drop_DropRight_spec_witness :
    ((0 : Int) < 2 ∧ (2 : Int) < (([1, 2, 3, 4, 5] : List Nat).length : Int))
    ∧ Drop [1, 2, 3, 4, 5] 2 = [1, 2, 3, 4, 5].drop (2 : Int).toNat
    ∧ DropRight [1, 2, 3, 4, 5] 2
        = [1, 2, 3, 4, 5].take ([1, 2, 3, 4, 5].length - (2 : Int).toNat) :=
  ⟨⟨by decide, by decide⟩,
    (Drop_DropRight_spec [1, 2, 3, 4, 5] 2).2.2 (by decide) (by decide)⟩

/-! ## DropWhile and DropRightWhile -/

theorem index_of_getElem? (s : List T) (k : Nat) (x : T) (h : s[k]? = some x) :
    index s (k : Int) = .ok x := by
  unfold index
  rw [if_neg (by omega), Int.toNat_ofNat, h]

theorem dropWhileLoop_offset (p : T → Bool) :
    ∀ (s : List T) (i : Nat), dropWhileLoop p s i = i + dropWhileLoop p s 0 := by
  intro s
  induction s with
  | nil => intro i; simp [dropWhileLoop]
  | cons x rest ih =>
    intro i
    rw [dropWhileLoop, dropWhileLoop]
    by_cases hp : p x = true
    · simp only [hp, Bool.not_true, Bool.false_eq_true, if_false]
      rw [ih (i + 1), ih (0 + 1)]
      omega
    · simp [hp]

/-- The index at which the loop of `DropWhile` stops is the least index whose element fails
the predicate, or the length when there is none. -/
theorem dropWhileLoop_spec (p : T → Bool) :
    ∀ s : List T,
      dropWhileLoop p s 0 ≤ s.length
      ∧ (∀ (j : Nat) (x : T), j < dropWhileLoop p s 0 → s[j]? = some x → p x = true)
      ∧ (∀ x : T, s[dropWhileLoop p s 0]? = some x → p x = false) := by
  intro s
  induction s with
  | nil => simp [dropWhileLoop]
  | cons x rest ih =>
    obtain ⟨h1, h2, h3⟩ := ih
    by_cases hp : p x = true
    · have hk : dropWhileLoop p (x :: rest) 0 = dropWhileLoop p rest 0 + 1 := by
        rw [dropWhileLoop]
        simp only [hp, Bool.not_true, Bool.false_eq_true, if_false]
        rw [dropWhileLoop_offset]
        omega
      rw [hk]
      refine ⟨by simp; omega, ?_, ?_⟩
      · intro j y hj hy
        cases j with
        | zero =>
          simp at hy
          rw [← hy]
          exact hp
        | succ j =>
          rw [List.getElem?_cons_succ] at hy
          exact h2 j y (by omega) hy
      · intro y hy
        rw [List.getElem?_cons_succ] at hy
        exact h3 y hy
    · have hk : dropWhileLoop p (x :: rest) 0 = 0 := by
        rw [dropWhileLoop]
        simp [hp]
      rw [hk]
      refine ⟨by simp, ?_, ?_⟩
      · intro j y hj _
        omega
      · intro y hy
        simp at hy
        rw [← hy]
        simpa using hp

/-- The loop of `DropRightWhile` started at `i = k - 1` stops at `m - 1`, where every
element at an index from `m` up to `k - 1` satisfies the predicate and, when `m > 0`, the
element at `m - 1` fails it. -/
theorem dropRightWhileLoop_spec (s : List T) (p : T → Bool) :
    ∀ k : Nat, k ≤ s.length →
      ∃ m : Nat, m ≤ k ∧ dropRightWhileLoop s p k = .ok ((m : Int) - 1)
        ∧ (∀ (j : Nat) (x : T), m ≤ j → j < k → s[j]? = some x → p x = true)
        ∧ (0 < m → ∃ x, s[m - 1]? = some x ∧ p x = false) := by
  intro k
  induction k with
  | zero =>
    intro _
    exact ⟨0, Nat.le_refl _, by simp [dropRightWhileLoop], by intro j x _ hj; omega,
      by intro h; omega⟩
  | succ k ih =>
    intro hk
    have hlt : k < s.length := by omega
    have hget : s[k]? = some (s.get ⟨k, hlt⟩) := by
      rw [List.getElem?_eq_getElem hlt]
      rfl
    have hidx := index_of_getElem? s k _ hget
    by_cases hp : p (s.get ⟨k, hlt⟩) = true
    · obtain ⟨m, hm, hloop, hall, hlast⟩ := ih (by omega)
      refine ⟨m, by omega, ?_, ?_, hlast⟩
      · rw [dropRightWhileLoop, hidx]
        simp only [hp, Bool.not_true, Bool.false_eq_true, if_false]
        exact hloop
      · intro j x hmj hj hx
        by_cases hjk : j = k
        · subst hjk
          rw [hget] at hx
          injection hx with hx
          rw [← hx]
          exact hp
        · exact hall j x hmj (by omega) hx
    · refine ⟨k + 1, Nat.le_refl _, ?_, ?_, ?_⟩
      · rw [dropRightWhileLoop, hidx]
        simp only [hp, Bool.not_false, if_true]
        push_cast
        congr 1
        omega
      · intro j x h1 h2
        omega
      · intro _
        exact ⟨s.get ⟨k, hlt⟩, by simp, by simpa using hp⟩

/-- Claim C15: `DropWhile s p` is the suffix `s[k:]` where `k` is the least index with
`p s[k]` false (`len s` if there is none), so every dropped element satisfies `p` and a
non-empty result starts with an element failing `p`; `DropRightWhile s p` is the prefix
`s[0:m]` where `m - 1` is the greatest index with `p s[m-1]` false (empty if there is
none), so a non-empty result ends with an element failing `p`. -/
theorem DropWhile_DropRightWhile_spec (s : List T) (p : T → Bool) :
    (∃ k : Nat, k ≤ s.length ∧ DropWhile s p = s.drop k
      ∧ (∀ (j : Nat) (x : T), j < k → s[j]? = some x → p x = true)
      ∧ (∀ x : T, s[k]? = some x → p x = false)
      ∧ (∀ x : T, (DropWhile s p).head? = some x → p x = false))
    ∧ (∃ m : Nat, m ≤ s.length ∧ DropRightWhile s p = .ok (s.take m)
      ∧ (∀ (j : Nat) (x : T), m ≤ j → s[j]? = some x → p x = true)
      ∧ (0 < m → ∃ x, s[m - 1]? = some x ∧ p x = false)
      ∧ (∀ x : T, (s.take m).getLast? = some x → p x = false)) := by
  constructor
  · obtain ⟨h1, h2, h3⟩ := dropWhileLoop_spec p s
    have hD : DropWhile s p = s.drop (dropWhileLoop p s 0) := by simp [DropWhile]
    refine ⟨dropWhileLoop p s 0, h1, hD, h2, h3, ?_⟩
    intro x hx
    rw [hD, List.head?_drop] at hx
    exact h3 x hx
  · obtain ⟨m, hm, hloop, hall, hlast⟩ := dropRightWhileLoop_spec s p s.length (Nat.le_refl _)
    have hD : DropRightWhile s p = .ok (s.take m) := by
      unfold DropRightWhile
      rw [hloop]
      simp only [List.nil_append]
      congr 2
      omega
    refine ⟨m, hm, hD, ?_, hlast, ?_⟩
    · intro j x hmj hx
      have hj : j < s.length := by
        by_contra hc
        rw [List.getElem?_eq_none (by omega)] at hx
        cases hx
      exact hall j x hmj hj hx
    · intro x hx
      rw [List.getLast?_eq_getElem?, List.length_take, Nat.min_eq_left hm] at hx
      by_cases hm0 : 0 < m
      · obtain ⟨y, hy, hpy⟩ := hlast hm0
        rw [List.getElem?_take_of_lt (by omega), hy] at hx
        injection hx with hx
        rw [← hx]
        exact hpy
      · have : m = 0 := by omega
        subst this
        simp at hx

theorem DropWhile_DropRightWhile_spec_witness :
    ∃ k : Nat, k ≤ [2, 4, 5, 6].length
      ∧ DropWhile [2, 4, 5, 6] (fun x : Nat => decide (x % 2 = 0)) = [2, 4, 5, 6].drop k
      ∧ (∀ (j : Nat) (x : Nat), j < k → [2, 4, 5, 6][j]? = some x →
          (fun x : Nat => decide (x % 2 = 0)) x = true)
      ∧ (∀ x : Nat, [2, 4, 5, 6][k]? = some x → (fun x : Nat => decide (x % 2 = 0)) x = false)
      ∧ (∀ x : Nat, (DropWhile [2, 4, 5, 6] (fun x : Nat => decide (x % 2 = 0))).head? = some x →
          (fun x : Nat => decide (x % 2 = 0)) x = false) :=
  (DropWhile_DropRightWhile_spec [2, 4, 5, 6] (fun x : Nat => decide (x % 2 = 0))).1

/-! ## ReduceBy and ReduceRight -/

theorem leftFoldSeq_succ {U : Type v} (s : List T) (initial : U) (f : Int → T → U → U)
    (i : Nat) (x : T) (h : s[i]? = some x) :
    leftFoldSeq s initial f (i + 1) = f (i : Int) x (leftFoldSeq s initial f i) := by
  simp [leftFoldSeq, h]

theorem rightFoldSeq_succ {U : Type v} (s : List T) (initial : U) (f : Int → T → U → U)
    (k : Nat) (x : T) (h : s[s.length - 1 - k]? = some x) :
    rightFoldSeq s initial f (k + 1)
      = f ((s.length - 1 - k : Nat) : Int) x (rightFoldSeq s initial f k) := by
  simp [rightFoldSeq, h]

theorem reduceByLoop_eq {U : Type v} (s : List T) (initial : U) (f : Int → T → U → U) :
    ∀ (rest pre : List T), pre ++ rest = s →
      reduceByLoop f rest pre.length (leftFoldSeq s initial f pre.length)
        = leftFoldSeq s initial f s.length := by
  intro rest
  induction rest with
  | nil =>
    intro pre h
    simp only [List.append_nil] at h
    subst h
    rfl
  | cons x rest ih =>
    intro pre h
    have hx : s[pre.length]? = some x := by
      subst h
      rw [List.getElem?_append_right (Nat.le_refl _)]
      simp
    have hstep := ih (pre ++ [x]) (by simpa using h)
    simp only [List.length_append, List.length_singleton] at hstep
    rw [leftFoldSeq_succ s initial f pre.length x hx] at hstep
    rw [reduceByLoop]
    exact hstep

theorem reduceRightLoop_eq {U : Type v} (s : List T) (initial : U) (f : Int → T → U → U) :
    ∀ k : Nat, k ≤ s.length →
      reduceRightLoop s f k (rightFoldSeq s initial f (s.length - k))
        = .ok (rightFoldSeq s initial f s.length) := by
  intro k
  induction k with
  | zero => intro _; simp [reduceRightLoop]
  | succ k ih =>
    intro hk
    have hlt : k < s.length := by omega
    have hget : s[k]? = some (s.get ⟨k, hlt⟩) := by
      rw [List.getElem?_eq_getElem hlt]
      rfl
    have hidx : s.length - 1 - (s.length - (k + 1)) = k := by omega
    have hsucc := rightFoldSeq_succ s initial f (s.length - (k + 1)) (s.get ⟨k, hlt⟩)
      (by rw [hidx]; exact hget)
    rw [hidx] at hsucc
    have hk2 : s.length - (k + 1) + 1 = s.length - k := by omega
    rw [hk2] at hsucc
    rw [reduceRightLoop, index_of_getElem? s k _ hget]
    simp only
    rw [← hsucc]
    exact ih (by omega)

/-- Claim C16: `ReduceBy s initial f` is the left fold `a_n` with `a_0 = initial` and
`a_(i+1) = f i s[i] a_i`, and `ReduceRight s initial f` is the mirrored fold that visits the
indices `len s - 1` down to `0` and passes to `f` each element with its own index; both
return `initial` for the empty sequence. -/
theorem ReduceBy_ReduceRight_spec {U : Type v} (s : List T) (initial : U)
    (f : Int → T → U → U) :
    ReduceBy s initial f = leftFoldSeq s initial f s.length
    ∧ ReduceRight s initial f = .ok (rightFoldSeq s initial f s.length)
    ∧ leftFoldSeq s initial f 0 = initial ∧ rightFoldSeq s initial f 0 = initial
    ∧ (∀ i (h : i < s.length),
        leftFoldSeq s initial f (i + 1)
          = f (i : Int) (s.get ⟨i, h⟩) (leftFoldSeq s initial f i))
    ∧ (∀ k (h : k < s.length),
        rightFoldSeq s initial f (k + 1)
          = f ((s.length - 1 - k : Nat) : Int) (s.get ⟨s.length - 1 - k, by omega⟩)
              (rightFoldSeq s initial f k))
    ∧ ReduceBy ([] : List T) initial f = initial
    ∧ ReduceRight ([] : List T) initial f = .ok initial := by
  refine ⟨?_, ?_, rfl, rfl, ?_, ?_, rfl, rfl⟩
  · exact reduceByLoop_eq s initial f s [] rfl
  · have h := reduceRightLoop_eq s initial f s.length (Nat.le_refl _)
    simp only [Nat.sub_self] at h
    exact h
  · intro i h
    apply leftFoldSeq_succ
    rw [List.getElem?_eq_getElem h]
    rfl
  · intro k h
    apply rightFoldSeq_succ
    rw [List.getElem?_eq_getElem (by omega)]
    rfl

theorem ReduceBy_ReduceRight_spec_witness :
    ReduceBy [1, 2, 3] (0 : Int) (fun (i : Int) (x : Int) (acc : Int) => acc * 10 + x + i) = 135
    ∧ ReduceRight [1, 2, 3] (0 : Int) (fun (i : Int) (x : Int) (acc : Int) => acc * 10 + x + i)
        = .ok 531
    ∧ rightFoldSeq [1, 2, 3] (0 : Int) (fun (i : Int) (x : Int) (acc : Int) => acc * 10 + x + i)
        (0 + 1)
      = (fun (i : Int) (x : Int) (acc : Int) => acc * 10 + x + i)
          (([1, 2, 3].length - 1 - 0 : Nat) : Int) ([1, 2, 3].get ⟨[1, 2, 3].length - 1 - 0, by decide⟩)
          (rightFoldSeq [1, 2, 3] (0 : Int)
            (fun (i : Int) (x : Int) (acc : Int) => acc * 10 + x + i) 0) :=
  ⟨by decide, rfl,
    (ReduceBy_ReduceRight_spec [1, 2, 3] (0 : Int)
      (fun (i : Int) (x : Int) (acc : Int) => acc * 10 + x + i)).2.2.2.2.2.1 0 (by decide)⟩

/-! ## Every, None, Some -/

theorem everyLoop_eq (p : Int → T → Bool) :
    ∀ (rest : List T) (n : Nat),
      everyLoop p rest n = (List.enumFrom n rest).all (fun ix => p (ix.1 : Int) ix.2) := by
  intro rest
  induction rest with
  | nil => intro n; rfl
  | cons v rest ih =>
    intro n
    rw [everyLoop, ih, List.enumFrom_cons, List.all_cons]
    by_cases hp : p (n : Int) v = true
    · simp [hp]
    · simp [hp]

theorem someLoop_eq (p : Int → T → Bool) :
    ∀ (rest : List T) (n : Nat),
      someLoop p rest n = (List.enumFrom n rest).any (fun ix => p (ix.1 : Int) ix.2) := by
  intro rest
  induction rest with
  | nil => intro n; rfl
  | cons v rest ih =>
    intro n
    rw [someLoop, ih, List.enumFrom_cons, List.any_cons]
    by_cases hp : p (n : Int) v = true
    · simp [hp]
    · simp [hp]

theorem noneLoop_eq (p : Int → T → Bool) :
    ∀ (rest : List T) (n : Nat) (l : Int),
      noneLoop p rest n l
        = l + (((List.enumFrom n rest).filter (fun ix => !p (ix.1 : Int) ix.2)).length : Int) := by
  intro rest
  induction rest with
  | nil => intro n l; simp [noneLoop]
  | cons v rest ih =>
    intro n l
    rw [noneLoop, ih, List.enumFrom_cons, List.filter_cons]
    by_cases hp : p (n : Int) v = true
    · simp [hp]
    · simp only [hp, Bool.not_false, if_true, List.length_cons]
      push_cast
      ring

theorem None_iff (s : List T) (p : Int → T → Bool) :
    None s p = true ↔ ∀ (i : Nat) (x : T), s[i]? = some x → p (i : Int) x = false := by
  unfold None
  simp only [noneLoop_eq, zero_add, decide_eq_true_eq, Nat.cast_inj]
  have hlen : s.length = (List.enumFrom 0 s).length := by rw [List.enumFrom_length]
  rw [hlen, List.filter_length_eq_length]
  constructor
  · intro h i x hx
    have := h (i, x) (List.mk_mem_enum_iff_getElem?.mpr hx)
    simpa using this
  · rintro h ⟨i, x⟩ hmem
    have := h i x (List.mk_mem_enum_iff_getElem?.mp hmem)
    simp [this]

theorem Some_iff (s : List T) (p : Int → T → Bool) :
    Some s p = true ↔ ∃ (i : Nat) (x : T), s[i]? = some x ∧ p (i : Int) x = true := by
  unfold Some
  rw [someLoop_eq, List.any_eq_true]
  constructor
  · rintro ⟨⟨i, x⟩, hmem, hp⟩
    exact ⟨i, x, List.mk_mem_enum_iff_getElem?.mp hmem, hp⟩
  · rintro ⟨i, x, hx, hp⟩
    exact ⟨(i, x), List.mk_mem_enum_iff_getElem?.mpr hx, hp⟩

theorem Every_iff (s : List T) (p : Int → T → Bool) :
    Every s p = true ↔ ∀ (i : Nat) (x : T), s[i]? = some x → p (i : Int) x = true := by
  unfold Every
  rw [everyLoop_eq, List.all_eq_true]
  constructor
  · intro h i x hx
    exact h (i, x) (List.mk_mem_enum_iff_getElem?.mpr hx)
  · rintro h ⟨i, x⟩ hmem
    exact h i x (List.mk_mem_enum_iff_getElem?.mp hmem)

/-- Claim C17: `None s p` is true if and only if no index `i` has `p i s[i]` true, that is
`None s p = not (Some s p)`; and `Every s p` is true if and only if every index `i` has
`p i s[i]` true. -/
theorem None_Some_Every_spec (s : List T) (p : Int → T → Bool) :
    (None s p = true ↔ ¬ ∃ (i : Nat) (x : T), s[i]? = some x ∧ p (i : Int) x = true)
    ∧ None s p = !Some s p
    ∧ (Every s p = true ↔ ∀ (i : Nat) (x : T), s[i]? = some x → p (i : Int) x = true) := by
  have hN : None s p = true ↔ ¬ ∃ (i : Nat) (x : T), s[i]? = some x ∧ p (i : Int) x = true := by
    rw [None_iff]
    constructor
    · rintro h ⟨i, x, hx, hp⟩
      rw [h i x hx] at hp
      cases hp
    · intro h i x hx
      by_contra hc
      exact h ⟨i, x, hx, by simpa using hc⟩
  refine ⟨hN, ?_, Every_iff s p⟩
  rw [Bool.eq_iff_iff, hN, Bool.not_eq_true', ← Bool.not_eq_true, Some_iff]

/-! ## Find and FindLast -/

theorem findLoop_found (p : Int → T → Bool) :
    ∀ (rest : List T) (n i : Nat) (x : T), rest[i]? = some x → p ((n + i : Nat) : Int) x = true →
      (∀ (j : Nat) (y : T), j < i → rest[j]? = some y → p ((n + j : Nat) : Int) y = false) →
      findLoop p rest n = ((n + i : Nat) : Int) := by
  intro rest
  induction rest with
  | nil => intro n i x hx; simp at hx
  | cons v rest ih =>
    intro n i x hx hp hlt
    cases i with
    | zero =>
      simp only [List.getElem?_cons_zero, Option.some.injEq] at hx
      subst hx
      rw [findLoop]
      simp only [Nat.add_zero] at hp ⊢
      rw [if_pos hp]
    | succ i =>
      rw [List.getElem?_cons_succ] at hx
      have hv : p (n : Int) v = false := by
        have := hlt 0 v (by omega) (by simp)
        simpa using this
      rw [findLoop, if_neg (by simp [hv])]
      have h := ih (n + 1) i x hx (by rw [show n + 1 + i = n + (i + 1) by omega]; exact hp)
        (by
          intro j y hj hy
          have := hlt (j + 1) y (by omega) (by rw [List.getElem?_cons_succ]; exact hy)
          rw [show n + 1 + j = n + (j + 1) by omega]
          exact this)
      rw [h]
      congr 1
      omega

theorem findLoop_none (p : Int → T → Bool) :
    ∀ (rest : List T) (n : Nat),
      (∀ (j : Nat) (y : T), rest[j]? = some y → p ((n + j : Nat) : Int) y = false) →
      findLoop p rest n = -1 := by
  intro rest
  induction rest with
  | nil => intro n _; rfl
  | cons v rest ih =>
    intro n h
    have hv : p (n : Int) v = false := by
      have := h 0 v (by simp)
      simpa using this
    rw [findLoop, if_neg (by simp [hv])]
    apply ih
    intro j y hy
    have := h (j + 1) y (by rw [List.getElem?_cons_succ]; exact hy)
    rw [show n + 1 + j = n + (j + 1) by omega]
    exact this

theorem findLastLoop_found (s : List T) (p : Int → T → Bool) (i : Nat) (x : T)
    (hx : s[i]? = some x) (hp : p (i : Int) x = true) :
    ∀ k : Nat, i < k → k ≤ s.length →
      (∀ (j : Nat) (y : T), i < j → j < k → s[j]? = some y → p (j : Int) y = false) →
      findLastLoop s p k = .ok (i : Int) := by
  intro k
  induction k with
  | zero => intro h; omega
  | succ k ih =>
    intro hik hk hgt
    have hlt : k < s.length := by omega
    have hget : s[k]? = some (s.get ⟨k, hlt⟩) := by
      rw [List.getElem?_eq_getElem hlt]
      rfl
    rw [findLastLoop, index_of_getElem? s k _ hget]
    by_cases hki : k = i
    · subst hki
      rw [hget] at hx
      injection hx with hx
      rw [hx]
      simp only [hp, if_true]
    · have hpk := hgt k _ (by omega) (by omega) hget
      simp only [hpk, Bool.false_eq_true, if_false]
      exact ih (by omega) (by omega) (fun j y h1 h2 hy => hgt j y h1 (by omega) hy)

theorem findLastLoop_none (s : List T) (p : Int → T → Bool)
    (h : ∀ (j : Nat) (y : T), s[j]? = some y → p (j : Int) y = false) :
    ∀ k : Nat, k ≤ s.length → findLastLoop s p k = .ok (-1) := by
  intro k
  induction k with
  | zero => intro _; rfl
  | succ k ih =>
    intro hk
    have hlt : k < s.length := by omega
    have hget : s[k]? = some (s.get ⟨k, hlt⟩) := by
      rw [List.getElem?_eq_getElem hlt]
      rfl
    rw [findLastLoop, index_of_getElem? s k _ hget]
    simp only [h k _ hget, Bool.false_eq_true, if_false]
    exact ih (by omega)

/-- Claim C18: `Find s p` returns `(s[i], true)` for the least index `i` with `p i s[i]`
true and `FindLast s p` returns `(s[j], true)` for the greatest such index `j`; when no
index satisfies `p`, both return the zero value of `T` and `false`. -/
theorem Find_FindLast_spec (zero : T) (s : List T) (p : Int → T → Bool) :
    (∀ (i : Nat) (x : T), s[i]? = some x → p (i : Int) x = true →
        (∀ (j : Nat) (y : T), j < i → s[j]? = some y → p (j : Int) y = false) →
        Find zero s p = .ok (x, true))
    ∧ (∀ (i : Nat) (x : T), s[i]? = some x → p (i : Int) x = true →
        (∀ (j : Nat) (y : T), i < j → s[j]? = some y → p (j : Int) y = false) →
        FindLast zero s p = .ok (x, true))
    ∧ ((∀ (i : Nat) (x : T), s[i]? = some x → p (i : Int) x = false) →
        Find zero s p = .ok (zero, false) ∧ FindLast zero s p = .ok (zero, false)) := by
  refine ⟨?_, ?_, ?_⟩
  · intro i x hx hp hlt
    have h := findLoop_found p s 0 i x hx (by simpa using hp)
      (fun j y hj hy => by simpa using hlt j y hj hy)
    simp only [Nat.zero_add] at h
    unfold Find
    simp only [h]
    rw [if_neg (by omega), index_of_getElem? s i x hx]
  · intro i x hx hp hgt
    have hi : i < s.length := by
      by_contra hc
      rw [List.getElem?_eq_none (by omega)] at hx
      cases hx
    have h := findLastLoop_found s p i x hx hp s.length hi (Nat.le_refl _)
      (fun j y h1 _ hy => hgt j y h1 hy)
    unfold FindLast
    rw [h]
    simp only
    rw [if_neg (by omega), index_of_getElem? s i x hx]
  · intro hnone
    constructor
    · have h := findLoop_none p s 0 (fun j y hy => by simpa using hnone j y hy)
      unfold Find
      simp only [h, if_true]
    · have h := findLastLoop_none s p hnone s.length (Nat.le_refl _)
      unfold FindLast
      rw [h]
      simp only [if_true]

theorem Find_FindLast_spec_witness :
    Find (0 : Int) [1, 4, 5, 6] (fun _ x => decide (Int.tmod x 2 = 0)) = .ok (4, true)
    ∧ FindLast (0 : Int) [1, 4, 5, 6] (fun _ x => decide (Int.tmod x 2 = 0)) = .ok (6, true)
    ∧ Find (0 : Int) [1, 3] (fun _ x => decide (Int.tmod x 2 = 0)) = .ok (0, false) :=
  ⟨(Find_FindLast_spec (0 : Int) [1, 4, 5, 6] (fun _ x => decide (Int.tmod x 2 = 0))).1 1 4
      (by decide) (by decide) (by
        intro j y hj hy
        have hj0 : j = 0 := by omega
        subst hj0
        simp at hy
        subst hy
        decide),
    (Find_FindLast_spec (0 : Int) [1, 4, 5, 6] (fun _ x => decide (Int.tmod x 2 = 0))).2.1 3 6
      (by decide) (by decide) (by
        intro j y hj hy
        have hnone : ([1, 4, 5, 6] : List Int)[j]? = none :=
          List.getElem?_eq_none (by simp; omega)
        rw [hnone] at hy
        cases hy),
    rfl⟩

/-! ## Flatten on a flat sequence -/

/-- Claim C20: for a type-erased sequence whose element kind is neither "sequence" nor
"any", whatever its length and contents, `Flatten` does not fail and returns a degenerate
result, the zero `reflect.Value`, which is not a sequence and so holds none of the elements
of the input. -/
theorem Flatten_flat_degenerate (x : GoValue) (elem : GoType) (items : List GoValue)
    (hx : sliceValue x = .ok (elem, items))
    (h1 : elem.kind ≠ .interface) (h2 : elem.kind ≠ .slice) :
    Flatten x = .ok (box (.other "reflect.Value" 0))
    ∧ isSequence (box (.other "reflect.Value" 0)) = false
    ∧ ∀ (e : GoType) (its : List GoValue),
        sliceValue (box (.other "reflect.Value" 0)) ≠ .ok (e, its) := by
  refine ⟨?_, by decide, ?_⟩
  · unfold Flatten
    rw [hx]
    cases elem with
    | iface => simp [GoType.kind] at h1
    | slice inner => simp [GoType.kind] at h2
    | _ => rfl
  · intro e its h
    simp [sliceValue, box, valueOf] at h

theorem Flatten_flat_degenerate_witness :
    Flatten (.slice .int [.int 1, .int 2, .int 3]) = .ok (box (.other "reflect.Value" 0))
    ∧ isSequence (box (.other "reflect.Value" 0)) = false
    ∧ ∀ (e : GoType) (its : List GoValue),
        sliceValue (box (.other "reflect.Value" 0)) ≠ .ok (e, its) :=
  Flatten_flat_degenerate (.slice .int [.int 1, .int 2, .int 3]) .int
    [.int 1, .int 2, .int 3] rfl (by decide) (by decide)

end Slice
